import Mathlib

/-!
Verification of the organizational domain hierarchy and domain-scoped
access-control subsystem of the task-management backend.

Shallow embedding of `backend/core/models.py` (class `Domain`),
`backend/core/domain_utils.py`, and the domain deletion flow of
`backend/core/views.py` (`DomainViewSet.perform_destroy` together with the
Django foreign-key `on_delete` semantics declared on the models).

The database table of domains is modelled as a list of rows (`Store`).
Python strings are modelled as Lean `String`; the decimal rendering of a
primary key done by the f-string `f"{self.parent.path}{self.parent.id}/"`
is modelled by an explicit decimal renderer `natToStr`, and `int(...)` on a
digit string (used by `Domain.get_ancestors`) by `pyInt`.  Unbounded Python
recursion (`Domain._update_children_paths`) is modelled with an explicit
fuel parameter; `none` models a crash of the recursion (Python
`RecursionError`) or a missing row a foreign key points at.
-/

/-- A row of the `core_domain` table: `id` (primary key), `name`,
`parent_id` (nullable self-referencing foreign key) and the materialized
`path` string. -/
structure DomainNode where
  id : Nat
  name : String
  parent : Option Nat
  path : String
deriving DecidableEq, Repr

/-- The domain table: the set of saved `Domain` rows. -/
abbrev Store := List DomainNode

/-- Decimal digits of `n`, most significant first, with explicit fuel
(`fuel > n` is always sufficient). -/
def natDigitsAux : Nat → Nat → List Nat
  | 0, _ => []
  | fuel + 1, n => if n < 10 then [n] else natDigitsAux fuel (n / 10) ++ [n % 10]

/-- Decimal digits of `n`, most significant first. -/
def natDigits (n : Nat) : List Nat := natDigitsAux (n + 1) n

/-- Python `str(n)` / `f"{n}"` for a nonnegative integer: its decimal
rendering. -/
def natToStr (n : Nat) : String := String.mk ((natDigits n).map Nat.digitChar)

/-- Numeric value of a decimal digit character (`'0'` ↦ 0, ..., `'9'` ↦ 9). -/
def charVal (c : Char) : Nat := c.toNat - 48

/-- Python `int(s)` restricted to the digit-string case (the only case the
source can meet on a well-formed materialized path): `some` of the decimal
value of a nonempty all-digit string, `none` (a `ValueError`) otherwise.  -/
def pyInt (cs : List Char) : Option Nat :=
  if cs ≠ [] ∧ cs.all Char.isDigit then
    some (cs.foldl (fun a c => 10 * a + charVal c) 0)
  else
    none

/-- Python `s.startswith(pre)`. -/
def startswith (s pre : String) : Bool := pre.data.isPrefixOf s.data

/-- The path of a child of a node with path `p` and primary key `i`:
`f"{p}{i}/"`. -/
def childPathOf (p : String) (i : Nat) : String := p ++ natToStr i ++ "/"

/-- `Domain.objects.get` by primary key `i` / following a foreign key with value `i`:
the first row whose `id` equals `i`. -/
def lookupDomain (s : Store) (i : Nat) : Option DomainNode :=
  s.find? fun n => n.id = i

/-- `child.save` restricted to the `path` column: persist only the `path` column
of row `i`. -/
def setPath (s : Store) (i : Nat) (p : String) : Store :=
  s.map fun n => if n.id = i then { n with path := p } else n

/-- `super().save()` on a freshly fetched existing instance whose `name`
and `parent` were changed: persist `name` and `parent`, keeping the stored
`path`. -/
def updateFields (s : Store) (i : Nat) (newName : String) (newParent : Option Nat) : Store :=
  s.map fun n => if n.id = i then { n with name := newName, parent := newParent } else n

/-- `self.children.all()`: primary keys of the rows whose `parent_id` is
`i`. -/
def childIds (s : Store) (i : Nat) : List Nat :=
  (s.filter fun n => n.parent = some i).map fun n => n.id

/-- The `(id, parent_id)` columns of the table: the parent-pointer graph,
which the path-repair walk never modifies. -/
def parentMap (s : Store) : List (Nat × Option Nat) :=
  s.map fun n => (n.id, n.parent)

/-- `Domain._update_children_paths`, fused with the `for child in
self.children.all()` loop it runs:

    for child in self.children.all():
        child.path = f"{self.path}{self.id}/"
        child.save(update_fields=['path'])
        child._update_children_paths()

`kids` is the remaining part of the children list of `selfId`, whose stored
path is `selfPath`.  One unit of fuel is spent per recursive step; Python's
recursion is unbounded, so exhausted fuel (`none`) models a
`RecursionError` crash, which the cyclic stores this walk diverges on
produce at every finite stack size. -/
def updateChildrenList (fuel : Nat) (s : Store) (kids : List Nat) (selfId : Nat)
    (selfPath : String) : Option Store :=
  match fuel, kids with
  | 0, _ => none
  | _ + 1, [] => some s
  | f + 1, k :: ks =>
    let newPath := childPathOf selfPath selfId
    let s1 := setPath s k newPath
    match updateChildrenList f s1 (childIds s1 k) k newPath with
    | none => none
    | some s2 => updateChildrenList f s2 ks selfId selfPath

/-- `self._update_children_paths()` on the node `selfId` whose stored path
is `selfPath`. -/
def updateChildrenPaths (fuel : Nat) (s : Store) (selfId : Nat) (selfPath : String) :
    Option Store :=
  updateChildrenList fuel s (childIds s selfId) selfId selfPath

/-- The path `Domain.save` computes for the instance before persisting:
`f"{self.parent.path}{self.parent.id}/"` if a parent is set (`none` if the
foreign key does not resolve), the root marker `"/"` otherwise. -/
def pathFromParent (s : Store) (par : Option Nat) : Option String :=
  match par with
  | none => some "/"
  | some pid => (lookupDomain s pid).map fun p => childPathOf p.path pid

/-- Fuel passed to the repair walk: any bound growing with the table is
enough for the acyclic stores the walk terminates on. -/
def repairFuel (s : Store) : Nat := 2 * s.length + 2

/-- `Domain.save` on a new instance (`self.pk is None`), as invoked by
`create(name, parent_id?)`: the path is computed from the parent and set
before the insert, then `_update_children_paths` runs (a no-op for a fresh
primary key, which no row's `parent_id` references). -/
def createDomain (s : Store) (newId : Nat) (newName : String) (par : Option Nat) :
    Option Store :=
  match pathFromParent s par with
  | none => none
  | some newPath =>
    let s1 := s ++ [{ id := newId, name := newName, parent := par, path := newPath }]
    updateChildrenPaths (repairFuel s1) s1 newId newPath

/-- `Domain.save` on an existing, freshly fetched instance whose `name` was
set to `newName` and `parent` to `par` (a *move* when the parent changed):

* `old_parent` is read back from the table;
* `new_path` is computed from the (already saved) new parent;
* `super().save()` persists the instance;
* if the parent changed, the path is persisted and
  `_update_children_paths` repairs the subtree.

There is no cycle or self-parent check anywhere in this method. -/
def saveExisting (s : Store) (i : Nat) (newName : String) (par : Option Nat) :
    Option Store :=
  match lookupDomain s i with
  | none => none
  | some old =>
    match pathFromParent s par with
    | none => none
    | some newPath =>
      let s1 := updateFields s i newName par
      if old.parent = par then
        some s1
      else
        let s2 := setPath s1 i newPath
        updateChildrenPaths (repairFuel s2) s2 i newPath

/-- `move(node_id, new_parent_id?)`: re-parent an existing node, keeping
its name (the `perform_update` path of `DomainViewSet` with only the parent
changed). -/
def moveDomain (s : Store) (i : Nat) (par : Option Nat) : Option Store :=
  match lookupDomain s i with
  | none => none
  | some old => saveExisting s i old.name par

/-- `Domain.is_ancestor_of`:
`other.path.startswith(f"{self.path}{self.id}/")`. -/
def is_ancestor_of (a other : DomainNode) : Bool :=
  startswith other.path (childPathOf a.path a.id)

/-- `Domain.is_descendant_of`:
`self.path.startswith(f"{other.path}{other.id}/")`. -/
def is_descendant_of (a other : DomainNode) : Bool :=
  startswith a.path (childPathOf other.path other.id)

/-- `Domain.get_descendants`: the rows whose path starts with
`f"{self.path}{self.id}/"` (does not include `self`). -/
def get_descendants (s : Store) (d : DomainNode) : List DomainNode :=
  s.filter fun n => startswith n.path (childPathOf d.path d.id)

/-- `Domain.get_all_descendant_ids`: descendant ids plus the node's own
id. -/
def get_all_descendant_ids (s : Store) (d : DomainNode) : List Nat :=
  ((get_descendants s d).map fun n => n.id) ++ [d.id]

/-- The ids embedded in a materialized path, in path order:
`[int(id) for id in path.strip('/').split('/') if id]`.  Splitting on `'/'`
and dropping empty segments makes the leading `strip('/')` redundant, so
the comprehension is: split on `'/'`, keep the nonempty segments, convert
each to an integer. -/
def splitSlash : List Char → List (List Char)
  | [] => [[]]
  | c :: cs =>
    if c = '/' then [] :: splitSlash cs
    else
      match splitSlash cs with
      | [] => [[c]]
      | seg :: rest => (c :: seg) :: rest

/-- Nonempty segments of a path between `'/'` delimiters. -/
def pathSegments (p : String) : List (List Char) :=
  (splitSlash p.data).filter fun seg => seg ≠ []

/-- `[int(id) for id in self.path.strip('/').split('/') if id]`. -/
def parsePathIds (p : String) : List Nat :=
  (pathSegments p).filterMap pyInt

/-- Row order used by Django when returning a queryset of domains:
`Meta.ordering = ['path']`. -/
def sortByPath (l : List DomainNode) : List DomainNode :=
  l.insertionSort fun a b => a.path ≤ b.path

/-- `Domain.get_ancestors`: an empty queryset for a root, otherwise
`Domain.objects.filter(id__in = path_ids)` — which Django returns ordered
by `Meta.ordering = ['path']`. -/
def get_ancestors (s : Store) (n : DomainNode) : List DomainNode :=
  match n.parent with
  | none => []
  | some _ => sortByPath (s.filter fun m => m.id ∈ parsePathIds n.path)

/-- The caller context the policy helpers read off the request user:
`user.is_staff` and `user.profile.domain` (absent when the user has no
profile or a null domain). -/
structure Caller where
  is_staff : Bool
  domain : Option DomainNode
deriving Repr

/-- A domain-tagged row of another table (project, task, ...): its
identity and its nullable `domain` foreign key, resolved to the referenced
row. -/
structure Entity where
  eid : Nat
  domain : Option DomainNode
deriving DecidableEq, Repr

/-- `get_user_domain`. -/
def get_user_domain (u : Caller) : Option DomainNode := u.domain

/-- `get_user_accessible_domain_ids`: the ids of the caller's domain and
all of its subdomains; empty if the caller has no domain. -/
def get_user_accessible_domain_ids (s : Store) (u : Caller) : List Nat :=
  match get_user_domain u with
  | none => []
  | some ud => get_all_descendant_ids s ud

/-- `filter_by_domain`: admins (`is_staff`) see the queryset unchanged;
a user with no domain gets the empty queryset; otherwise
`queryset.filter(domain__id__in = accessible_domain_ids)` — a SQL `IN`
filter on the foreign-key column, which drops every row whose `domain` is
null. -/
def filter_by_domain (s : Store) (qs : List Entity) (u : Caller) : List Entity :=
  if u.is_staff then qs
  else
    let ids := get_user_accessible_domain_ids s u
    if ids = [] then []
    else qs.filter fun e =>
      match e.domain with
      | some d => d.id ∈ ids
      | none => false

/-- `user_can_access_domain`.  The `user_domain == domain` comparison is
Django model equality, which compares primary keys. -/
def user_can_access_domain (u : Caller) (d : DomainNode) : Bool :=
  if u.is_staff then true
  else
    match get_user_domain u with
    | none => false
    | some ud =>
      if ud.id = d.id then true
      else if is_ancestor_of ud d then true
      else false

/-- `user_can_access_entity`. -/
def user_can_access_entity (u : Caller) (e : Entity) : Bool :=
  if u.is_staff then true
  else
    match e.domain with
    | none => false
    | some d => user_can_access_domain u d

/-- One round of Django's delete collector on the self-referencing CASCADE
foreign key: add every not-yet-collected row whose `parent_id` is already
collected (the collector visits each object once). -/
def cascadeStep (s : Store) (cur : List Nat) : List Nat :=
  cur ++ (s.filter fun n =>
    match n.parent with
    | some p => decide (p ∈ cur) && decide (n.id ∉ cur)
    | none => false).map fun n => n.id

/-- Iterate the collector. -/
def iterCascade (s : Store) : Nat → List Nat → List Nat
  | 0, cur => cur
  | f + 1, cur => iterCascade s f (cascadeStep s cur)

/-- The set of rows `instance.delete()` collects: the instance and,
through the CASCADE parent foreign key, all of its descendants (the
collector expands until a fixpoint; `s.length` rounds always reach it). -/
def collectedIds (s : Store) (x : Nat) : List Nat :=
  iterCascade s s.length [x]

/-- A PROTECT-linked row (a project or a task): its nullable `domain_id`
column. -/
structure RefEntity where
  rid : Nat
  domain : Option Nat
deriving DecidableEq, Repr

/-- A SET_NULL-linked row (a user profile): its nullable `domain_id`
column. -/
structure UserRef where
  uid : Nat
  domain : Option Nat
deriving DecidableEq, Repr

/-- `len(e.protected_objects)`: how many PROTECT-linked rows reference any
collected domain. -/
def protectedCount (refs : List RefEntity) (ids : List Nat) : Nat :=
  (refs.filter fun e =>
    match e.domain with
    | some d => decide (d ∈ ids)
    | none => false).length

/-- `DomainViewSet.perform_destroy`: `instance.delete()` collects the
subtree through the CASCADE parent key; if any PROTECT-linked row
(project or task) references a collected domain, Django raises
`ProtectedError` carrying all protecting objects, which the view turns
into a `ValidationError` whose message carries
`len(e.protected_objects)` (modelled as `Except.error count`); otherwise
the subtree rows are deleted and every SET_NULL-linked user profile
pointing into it is detached.  `none` models a missing instance. -/
def deleteDomain (s : Store) (refs : List RefEntity) (users : List UserRef) (x : Nat) :
    Option (Except Nat (Store × List UserRef)) :=
  match lookupDomain s x with
  | none => none
  | some _ =>
    let ids := collectedIds s x
    let cnt := protectedCount refs ids
    if cnt ≠ 0 then
      some (Except.error cnt)
    else
      some (Except.ok
        (s.filter fun n => decide (n.id ∉ ids),
         users.map fun u =>
           match u.domain with
           | some d => if d ∈ ids then { u with domain := none } else u
           | none => u))

/-- Strict parent-pointer descendant relation of the `(id, parent_id)`
graph: `Desc pm a b` holds when `b` lies strictly below `a` in the
forest. -/
inductive Desc (pm : List (Nat × Option Nat)) : Nat → Nat → Prop
  | child {a b : Nat} : (b, some a) ∈ pm → Desc pm a b
  | step {a b c : Nat} : Desc pm a b → (c, some b) ∈ pm → Desc pm a c

/-- A ranking certificate of acyclicity: every parent edge strictly
decreases the rank. -/
def RankedPM (r : Nat → Nat) (pm : List (Nat × Option Nat)) : Prop :=
  ∀ cp ∈ pm, ∀ pid, cp.2 = some pid → r pid < r cp.1

/-- The table has no two rows with the same primary key. -/
def UniqueIds (s : Store) : Prop := (s.map fun n => n.id).Nodup

/-- Invariant I1 for one row: its stored path is the one `save` computes
from its parent (`"/"` for a root, `parent.path + parent.id + "/"`
otherwise, which also forces the parent row to exist). -/
def PathOk (s : Store) (n : DomainNode) : Prop :=
  pathFromParent s n.parent = some n.path

/-- Invariant I1 for the whole table. -/
def InvariantI1 (s : Store) : Prop := ∀ n ∈ s, PathOk s n

instance (r : Nat → Nat) (cp : Nat × Option Nat) :
    Decidable (∀ pid, cp.2 = some pid → r pid < r cp.1) :=
  match cp.2 with
  | none => isTrue (by intro pid hpid; cases hpid)
  | some q =>
    if hq : r q < r cp.1 then
      isTrue (by intro pid hpid; cases hpid; exact hq)
    else
      isFalse (by intro hall; exact hq (hall q rfl))

instance (s : Store) : Decidable (UniqueIds s) := by
  unfold UniqueIds; infer_instance

instance (r : Nat → Nat) (pm : List (Nat × Option Nat)) : Decidable (RankedPM r pm) := by
  unfold RankedPM; exact List.decidableBAll _ pm

instance (s : Store) (n : DomainNode) : Decidable (PathOk s n) := by
  unfold PathOk; infer_instance

instance (s : Store) : Decidable (InvariantI1 s) := by
  unfold InvariantI1; exact List.decidableBAll _ s

instance : IsTotal DomainNode fun a b => a.path ≤ b.path :=
  ⟨fun a b => le_total a.path b.path⟩

instance : IsTrans DomainNode fun a b => a.path ≤ b.path :=
  ⟨fun _ _ _ h1 h2 => le_trans h1 h2⟩

instance : IsAntisymm DomainNode fun a b => a.path < b.path :=
  ⟨fun _ _ h1 h2 => absurd h2 (lt_asymm h1)⟩

/-- `j` lies in the union of the subtrees rooted at the listed nodes. -/
def InClos (pm : List (Nat × Option Nat)) (kids : List Nat) (j : Nat) : Prop :=
  ∃ k ∈ kids, j = k ∨ Desc pm k j

/-- Validity of a domain table: unique primary keys, an acyclicity
ranking for the parent graph, and Invariant I1. -/
def ValidStore (s : Store) (r : Nat → Nat) : Prop :=
  UniqueIds s ∧ RankedPM r (parentMap s) ∧ InvariantI1 s

/-- A three-node demo table: `Root(1) ← C(2) ← G(3)`. -/
def demo3 : Store :=
  [⟨1, "Root", none, "/"⟩, ⟨2, "C", some 1, "/1/"⟩, ⟨3, "G", some 2, "/1/2/"⟩]

section BasicLemmas

theorem natDigitsAux_spec (fuel : Nat) :
    ∀ n, n < fuel →
      (∀ d ∈ natDigitsAux fuel n, d < 10) ∧ natDigitsAux fuel n ≠ [] ∧
        (natDigitsAux fuel n).foldl (fun a d => 10 * a + d) 0 = n := by
  induction fuel with
  | zero => intro n h; omega
  | succ f ih =>
    intro n h
    by_cases hn : n < 10
    · simp [natDigitsAux, hn]
    · have hd : n / 10 < f := by
        have h1 : n / 10 < n := Nat.div_lt_self (by omega) (by omega)
        omega
      obtain ⟨ih1, ih2, ih3⟩ := ih (n / 10) hd
      refine ⟨?_, ?_, ?_⟩
      · intro d hdm
        simp only [natDigitsAux, if_neg hn, List.mem_append, List.mem_singleton] at hdm
        rcases hdm with hdm | hdm
        · exact ih1 d hdm
        · subst hdm; exact Nat.mod_lt _ (by omega)
      · simp [natDigitsAux, if_neg hn]
      · simp only [natDigitsAux, if_neg hn, List.foldl_append, List.foldl_cons,
          List.foldl_nil, ih3]
        omega

theorem natDigits_lt (n : Nat) : ∀ d ∈ natDigits n, d < 10 :=
  (natDigitsAux_spec (n + 1) n (by omega)).1

theorem natDigits_ne_nil (n : Nat) : natDigits n ≠ [] :=
  (natDigitsAux_spec (n + 1) n (by omega)).2.1

theorem natDigits_val (n : Nat) :
    (natDigits n).foldl (fun a d => 10 * a + d) 0 = n :=
  (natDigitsAux_spec (n + 1) n (by omega)).2.2

theorem digitChar_spec (d : Nat) (h : d < 10) :
    Nat.digitChar d ≠ '/' ∧ (Nat.digitChar d).isDigit = true ∧
      charVal (Nat.digitChar d) = d := by
  interval_cases d <;> exact ⟨by decide, by decide, by decide⟩

theorem natToStr_data (n : Nat) :
    (natToStr n).data = (natDigits n).map Nat.digitChar := rfl

theorem natToStr_ne_nil (n : Nat) : (natToStr n).data ≠ [] := by
  rw [natToStr_data]
  intro h
  exact natDigits_ne_nil n (List.map_eq_nil_iff.mp h)

theorem slash_not_mem_natToStr (n : Nat) : '/' ∉ (natToStr n).data := by
  rw [natToStr_data]
  intro h
  obtain ⟨d, hd, hc⟩ := List.mem_map.mp h
  exact (digitChar_spec d (natDigits_lt n d hd)).1 hc

theorem natToStr_all_digit (n : Nat) :
    ∀ c ∈ (natToStr n).data, c.isDigit = true := by
  rw [natToStr_data]
  intro c hc
  obtain ⟨d, hd, rfl⟩ := List.mem_map.mp hc
  exact (digitChar_spec d (natDigits_lt n d hd)).2.1

theorem foldl_val_map_digitChar (l : List Nat) (hl : ∀ d ∈ l, d < 10) :
    ∀ a, (l.map Nat.digitChar).foldl (fun x c => 10 * x + charVal c) a =
      l.foldl (fun x d => 10 * x + d) a := by
  induction l with
  | nil => intro a; rfl
  | cons d t ih =>
    intro a
    simp only [List.map_cons, List.foldl_cons]
    rw [(digitChar_spec d (hl d (by simp))).2.2]
    exact ih (fun x hx => hl x (by simp [hx])) _

theorem pyInt_natToStr (n : Nat) : pyInt (natToStr n).data = some n := by
  unfold pyInt
  rw [if_pos]
  · rw [natToStr_data, foldl_val_map_digitChar _ (natDigits_lt n), natDigits_val]
  · refine ⟨natToStr_ne_nil n, ?_⟩
    rw [List.all_eq_true]
    exact natToStr_all_digit n

theorem natToStr_inj {m n : Nat} (h : natToStr m = natToStr n) : m = n := by
  have := pyInt_natToStr m
  rw [h, pyInt_natToStr] at this
  exact (Option.some_inj.mp this).symm

end BasicLemmas

section StoreLemmas

theorem startswith_iff (s pre : String) :
    startswith s pre = true ↔ pre.data <+: s.data := by
  simp [startswith]

theorem childPathOf_data (p : String) (i : Nat) :
    (childPathOf p i).data = p.data ++ (natToStr i).data ++ ['/'] := by
  simp [childPathOf, String.data_append]

theorem lookupDomain_mem {s : Store} {i : Nat} {n : DomainNode}
    (h : lookupDomain s i = some n) : n ∈ s ∧ n.id = i := by
  unfold lookupDomain at h
  refine ⟨List.mem_of_find?_eq_some h, ?_⟩
  have := List.find?_some h
  simpa using this

theorem mem_lookupDomain {s : Store} (hu : UniqueIds s) {n : DomainNode}
    (hn : n ∈ s) : lookupDomain s n.id = some n := by
  induction s with
  | nil => cases hn
  | cons a t ih =>
    unfold UniqueIds at hu
    simp only [List.map_cons, List.nodup_cons] at hu
    rcases List.mem_cons.mp hn with rfl | hmem
    · simp [lookupDomain]
    · have hne : n.id ≠ a.id := by
        intro he
        exact hu.1 (he ▸ List.mem_map_of_mem (fun m => m.id) hmem)
      unfold lookupDomain
      rw [List.find?_cons_of_neg]
      · exact ih hu.2 hmem
      · simp [hne.symm]

theorem lookupDomain_setPath (s : Store) (i : Nat) (p : String) (j : Nat) :
    lookupDomain (setPath s i p) j =
      (lookupDomain s j).map fun n => if n.id = i then { n with path := p } else n := by
  unfold lookupDomain setPath
  rw [List.find?_map]
  have hp : ((fun n : DomainNode => decide (n.id = j)) ∘
      fun n => if n.id = i then { n with path := p } else n) =
        fun n : DomainNode => decide (n.id = j) := by
    funext n
    by_cases h : n.id = i <;> simp [Function.comp, h]
  rw [hp]

theorem lookupDomain_updateFields (s : Store) (i : Nat) (nm : String)
    (np : Option Nat) (j : Nat) :
    lookupDomain (updateFields s i nm np) j =
      (lookupDomain s j).map fun n =>
        if n.id = i then { n with name := nm, parent := np } else n := by
  unfold lookupDomain updateFields
  rw [List.find?_map]
  have hp : ((fun n : DomainNode => decide (n.id = j)) ∘
      fun n => if n.id = i then { n with name := nm, parent := np } else n) =
        fun n : DomainNode => decide (n.id = j) := by
    funext n
    by_cases h : n.id = i <;> simp [Function.comp, h]
  rw [hp]

theorem parentMap_setPath (s : Store) (i : Nat) (p : String) :
    parentMap (setPath s i p) = parentMap s := by
  unfold parentMap setPath
  rw [List.map_map]
  apply List.map_congr_left
  intro a _
  by_cases h : a.id = i <;> simp [h]

theorem ids_setPath (s : Store) (i : Nat) (p : String) :
    (setPath s i p).map (fun n => n.id) = s.map fun n => n.id := by
  unfold setPath
  rw [List.map_map]
  apply List.map_congr_left
  intro a _
  by_cases h : a.id = i <;> simp [h]

theorem parentMap_updateFields (s : Store) (i : Nat) (nm : String) (np : Option Nat) :
    parentMap (updateFields s i nm np) =
      (parentMap s).map fun cp => if cp.1 = i then (cp.1, np) else cp := by
  unfold parentMap updateFields
  rw [List.map_map, List.map_map]
  apply List.map_congr_left
  intro a _
  by_cases h : a.id = i <;> simp [h]

theorem mem_parentMap {s : Store} {j : Nat} {q : Option Nat} :
    (j, q) ∈ parentMap s ↔ ∃ n ∈ s, n.id = j ∧ n.parent = q := by
  unfold parentMap
  simp only [List.mem_map, Prod.mk.injEq]

theorem parentMap_fst (s : Store) :
    (parentMap s).map Prod.fst = s.map fun n => n.id := by
  unfold parentMap
  rw [List.map_map]
  rfl

theorem childIds_parentMap (s : Store) (i : Nat) :
    childIds s i = ((parentMap s).filter fun cp => cp.2 = some i).map Prod.fst := by
  unfold childIds parentMap
  rw [List.filter_map, List.map_map]
  rfl

theorem childIds_eq_of_parentMap {s1 s2 : Store} (h : parentMap s1 = parentMap s2)
    (i : Nat) : childIds s1 i = childIds s2 i := by
  rw [childIds_parentMap, childIds_parentMap, h]

theorem uniqueIds_of_parentMap {s1 s2 : Store} (h : parentMap s1 = parentMap s2)
    (hu : UniqueIds s1) : UniqueIds s2 := by
  unfold UniqueIds at *
  rw [← parentMap_fst] at hu ⊢
  rw [← h]
  exact hu

theorem parentMap_functional {s : Store} (hu : UniqueIds s) {c : Nat}
    {p1 p2 : Option Nat} (h1 : (c, p1) ∈ parentMap s) (h2 : (c, p2) ∈ parentMap s) :
    p1 = p2 := by
  obtain ⟨n1, hn1, hi1, hp1⟩ := mem_parentMap.mp h1
  obtain ⟨n2, hn2, hi2, hp2⟩ := mem_parentMap.mp h2
  have : n1 = n2 := by
    have e1 := mem_lookupDomain hu hn1
    have e2 := mem_lookupDomain hu hn2
    rw [hi1] at e1
    rw [hi2] at e2
    rw [e1] at e2
    exact Option.some_inj.mp e2
  rw [← hp1, ← hp2, this]

end StoreLemmas

section DescLemmas

variable {pm : List (Nat × Option Nat)} {r : Nat → Nat}

theorem desc_rank (hr : RankedPM r pm) {a b : Nat} (h : Desc pm a b) : r a < r b := by
  induction h with
  | child he => exact hr _ he _ rfl
  | step _ he ih => exact Nat.lt_trans ih (hr _ he _ rfl)

theorem desc_irrefl (hr : RankedPM r pm) (a : Nat) : ¬ Desc pm a a := fun h =>
  Nat.lt_irrefl _ (desc_rank hr h)

theorem desc_inversion {a c : Nat} (h : Desc pm a c) :
    ∃ b, (c, some b) ∈ pm ∧ (b = a ∨ Desc pm a b) := by
  cases h with
  | child he => exact ⟨a, he, Or.inl rfl⟩
  | step hd he => exact ⟨_, he, Or.inr hd⟩

theorem desc_decomp {a x : Nat} (h : Desc pm a x) :
    ∃ k, (k, some a) ∈ pm ∧ (x = k ∨ Desc pm k x) := by
  induction h with
  | child he => exact ⟨_, he, Or.inl rfl⟩
  | step _ he ih =>
    obtain ⟨k, hk, hca⟩ := ih
    refine ⟨k, hk, Or.inr ?_⟩
    rcases hca with heq | hd
    · subst heq; exact Desc.child he
    · exact Desc.step hd he

theorem desc_prepend {a k j : Nat} (he : (k, some a) ∈ pm) (h : Desc pm k j) :
    Desc pm a j := by
  induction h with
  | child hc => exact Desc.step (Desc.child he) hc
  | step _ hc ih => exact Desc.step ih hc

/-- A node reachable downward from two nodes relates them: in a
functional parent graph downward chains to the same node coincide
upward. -/
theorem desc_funct
    (hf : ∀ c p1 p2, (c, p1) ∈ pm → (c, p2) ∈ pm → p1 = p2)
    {a b x : Nat} (ha : Desc pm a x) (hb : Desc pm b x) :
    a = b ∨ Desc pm a b ∨ Desc pm b a := by
  induction ha with
  | child he =>
    obtain ⟨c, hc, hcb⟩ := desc_inversion hb
    have : some c = some a := hf _ _ _ hc he
    cases this
    rcases hcb with rfl | hd
    · exact Or.inl rfl
    · exact Or.inr (Or.inr hd)
  | step hay he ih =>
    obtain ⟨c, hc, hcb⟩ := desc_inversion hb
    have heq : some c = some _ := hf _ _ _ hc he
    cases heq
    rcases hcb with rfl | hd
    · exact Or.inr (Or.inl hay)
    · exact ih hd

/-- Subtrees of two distinct children of the same node are disjoint
(together with the children themselves). -/
theorem sibling_disjoint
    (hf : ∀ c p1 p2, (c, p1) ∈ pm → (c, p2) ∈ pm → p1 = p2)
    (hr : RankedPM r pm) {a k k' : Nat}
    (hk : (k, some a) ∈ pm) (hk' : (k', some a) ∈ pm) (hne : k ≠ k')
    {j : Nat} (h1 : j = k ∨ Desc pm k j) (h2 : j = k' ∨ Desc pm k' j) : False := by
  have hself : ∀ m : Nat, (m, some a) ∈ pm → ¬ Desc pm m a := by
    intro m hm hd
    exact desc_irrefl hr m (Desc.step hd hm)
  have hup : ∀ m m' : Nat, (m, some a) ∈ pm → (m', some a) ∈ pm → ¬ Desc pm m' m := by
    intro m m' hm hm' hd
    obtain ⟨c, hc, hcb⟩ := desc_inversion hd
    have : some c = some a := hf _ _ _ hc hm
    cases this
    rcases hcb with rfl | hdd
    · exact absurd hm' (by intro hmem; exact Nat.lt_irrefl _ (hr _ hmem _ rfl))
    · exact hself _ hm' hdd
  rcases h1 with rfl | hd1
  · rcases h2 with rfl | hd2
    · exact hne rfl
    · exact hup _ _ hk hk' hd2
  · rcases h2 with rfl | hd2
    · exact hup _ _ hk' hk hd1
    · rcases desc_funct hf hd1 hd2 with rfl | hd | hd
      · exact hne rfl
      · exact hup _ _ hk' hk hd
      · exact hup _ _ hk hk' hd

end DescLemmas

section RepairHelpers

variable {pm : List (Nat × Option Nat)} {r : Nat → Nat}

theorem desc_trans {a b c : Nat} (h1 : Desc pm a b) (h2 : Desc pm b c) :
    Desc pm a c := by
  induction h2 with
  | child he => exact Desc.step h1 he
  | step _ he ih => exact Desc.step ih he

theorem mem_childIds {s : Store} {i k : Nat} :
    k ∈ childIds s i ↔ (k, some i) ∈ parentMap s := by
  rw [childIds_parentMap]
  simp only [List.mem_map, List.mem_filter, decide_eq_true_eq]
  constructor
  · rintro ⟨cp, ⟨hcp, h2⟩, rfl⟩
    rcases cp with ⟨c, q⟩
    cases h2
    exact hcp
  · intro h
    exact ⟨(k, some i), ⟨h, rfl⟩, rfl⟩

theorem childIds_nodup {s : Store} (hu : UniqueIds s) (i : Nat) :
    (childIds s i).Nodup := by
  unfold childIds
  unfold UniqueIds at hu
  exact ((List.filter_sublist s).map fun n => n.id).nodup hu

theorem lookupDomain_setPath_ne {s : Store} {i j : Nat} (p : String) (h : j ≠ i) :
    lookupDomain (setPath s i p) j = lookupDomain s j := by
  rw [lookupDomain_setPath]
  cases hl : lookupDomain s j with
  | none => rfl
  | some n =>
    have := (lookupDomain_mem hl).2
    simp [this, h]

theorem lookupDomain_updateFields_ne {s : Store} {i j : Nat} (nm : String)
    (np : Option Nat) (h : j ≠ i) :
    lookupDomain (updateFields s i nm np) j = lookupDomain s j := by
  rw [lookupDomain_updateFields]
  cases hl : lookupDomain s j with
  | none => rfl
  | some n =>
    have := (lookupDomain_mem hl).2
    simp [this, h]

theorem inClos_cons {kids : List Nat} {k j : Nat} :
    InClos pm (k :: kids) j ↔ (j = k ∨ Desc pm k j) ∨ InClos pm kids j := by
  unfold InClos
  simp only [List.mem_cons]
  constructor
  · rintro ⟨k', hk', hor⟩
    rcases hk' with rfl | hk'
    · exact Or.inl hor
    · exact Or.inr ⟨k', hk', hor⟩
  · rintro (hor | ⟨k', hk', hor⟩)
    · exact ⟨k, Or.inl rfl, hor⟩
    · exact ⟨k', Or.inr hk', hor⟩

theorem inClos_nil {j : Nat} : ¬ InClos pm [] j := by
  rintro ⟨k, hk, _⟩
  cases hk

end RepairHelpers

/-- Master characterization of the repair walk `updateChildrenList`, by
induction on the fuel: on a table with unique ids and a ranked (acyclic)
parent graph, a successful walk from `a` (stored path `p`) over a duplicate
free list `kids` of children of `a`

* leaves the `(id, parent)` columns untouched,
* leaves every row outside the subtrees of `kids` untouched, and
* rewrites every row inside so that its path is the child path of its
  parent's final row (the rows whose parent is `a` itself getting
  `childPathOf p a`). -/
theorem ucl_master (fuel : Nat) :
    ∀ (s : Store) (kids : List Nat) (a : Nat) (p : String) (s' : Store) (r : Nat → Nat),
      UniqueIds s → RankedPM r (parentMap s) →
      (∀ k ∈ kids, (k, some a) ∈ parentMap s) → kids.Nodup →
      updateChildrenList fuel s kids a p = some s' →
      parentMap s' = parentMap s ∧
      (∀ j, ¬ InClos (parentMap s) kids j → lookupDomain s' j = lookupDomain s j) ∧
      (∀ j, InClos (parentMap s) kids j →
        ∃ n', lookupDomain s' j = some n' ∧ ∃ pid, n'.parent = some pid ∧
          ((pid = a ∧ n'.path = childPathOf p a) ∨
           (InClos (parentMap s) kids pid ∧
            ∃ q, lookupDomain s' pid = some q ∧ n'.path = childPathOf q.path pid))) := by
  induction fuel with
  | zero =>
    intro s kids a p s' r _ _ _ _ h5
    simp [updateChildrenList] at h5
  | succ f ih =>
    intro s kids a p s' r hu hr h3 hnod h5
    cases kids with
    | nil =>
      simp only [updateChildrenList, Option.some_inj] at h5
      subst h5
      exact ⟨rfl, fun j _ => rfl, fun j hj => absurd hj inClos_nil⟩
    | cons k ks =>
      simp only [updateChildrenList] at h5
      set np := childPathOf p a with hnp
      set s1 := setPath s k np with hs1
      cases h6 : updateChildrenList f s1 (childIds s1 k) k np with
      | none => rw [h6] at h5; cases h5
      | some s2 =>
        rw [h6] at h5
        -- basic facts about the parent graph
        have pm1 : parentMap s1 = parentMap s := parentMap_setPath s k np
        have hu1 : UniqueIds s1 := uniqueIds_of_parentMap pm1.symm hu
        have hr1 : RankedPM r (parentMap s1) := by rw [pm1]; exact hr
        have hfunct : ∀ c p1 p2, (c, p1) ∈ parentMap s → (c, p2) ∈ parentMap s → p1 = p2 :=
          fun c p1 p2 hx hy => parentMap_functional hu hx hy
        have hka : (k, some a) ∈ parentMap s := h3 k (List.mem_cons_self k ks)
        have hks : ∀ k' ∈ ks, (k', some a) ∈ parentMap s :=
          fun k' hk' => h3 k' (List.mem_cons_of_mem k hk')
        have hknotks : k ∉ ks := (List.nodup_cons.mp hnod).1
        have hnodks : ks.Nodup := (List.nodup_cons.mp hnod).2
        -- disjointness of k's subtree from the closures of the later kids
        have hdisj : ∀ j, (j = k ∨ Desc (parentMap s) k j) → ¬ InClos (parentMap s) ks j := by
          rintro j hj ⟨k', hk', hor⟩
          exact sibling_disjoint hfunct hr hka (hks k' hk')
            (fun he => hknotks (he ▸ hk')) hj hor
        -- the inner closure is exactly k's strict subtree
        have hclosk : ∀ j, InClos (parentMap s1) (childIds s1 k) j ↔ Desc (parentMap s) k j := by
          intro j
          rw [pm1]
          constructor
          · rintro ⟨k'', hk'', hor⟩
            have he : (k'', some k) ∈ parentMap s := by
              rw [← pm1]; exact mem_childIds.mp hk''
            rcases hor with rfl | hd
            · exact Desc.child he
            · exact desc_prepend he hd
          · intro hd
            obtain ⟨k'', he, hor⟩ := desc_decomp hd
            refine ⟨k'', ?_, hor⟩
            rw [hs1]
            exact mem_childIds.mpr (by rw [pm1]; exact he)
        -- run the induction hypothesis on the inner walk
        have hkidedges : ∀ k' ∈ childIds s1 k, (k', some k) ∈ parentMap s1 :=
          fun k' hk' => mem_childIds.mp hk'
        obtain ⟨ipm, iframe, icorr⟩ :=
          ih s1 (childIds s1 k) k np s2 r hu1 hr1 hkidedges (childIds_nodup hu1 k) h6
        have pm2 : parentMap s2 = parentMap s := ipm.trans pm1
        have hu2 : UniqueIds s2 := uniqueIds_of_parentMap pm2.symm hu
        have hr2 : RankedPM r (parentMap s2) := by rw [pm2]; exact hr
        have hksedges : ∀ k' ∈ ks, (k', some a) ∈ parentMap s2 := by
          rw [pm2]; exact hks
        obtain ⟨opm, oframe, ocorr⟩ := ih s2 ks a p s' r hu2 hr2 hksedges hnodks h5
        rw [pm2] at opm oframe ocorr
        -- the row of k after the whole walk
        obtain ⟨nk, hnkmem, hnkid, hnkpar⟩ := mem_parentMap.mp hka
        have hlks : lookupDomain s k = some nk := by
          rw [← hnkid]; exact mem_lookupDomain hu hnkmem
        have hlk1 : lookupDomain s1 k = some { nk with path := np } := by
          rw [hs1, lookupDomain_setPath, hlks]
          simp [hnkid]
        have hnotdesckk : ¬ Desc (parentMap s) k k := desc_irrefl hr k
        have hlk2 : lookupDomain s2 k = some { nk with path := np } := by
          rw [iframe k (fun hc => hnotdesckk ((hclosk k).mp hc))]
          exact hlk1
        have hlk' : lookupDomain s' k = some { nk with path := np } := by
          rw [oframe k (hdisj k (Or.inl rfl))]
          exact hlk2
        refine ⟨opm, ?_, ?_⟩
        · -- frame
          intro j hj
          rw [inClos_cons] at hj
          push_neg at hj
          obtain ⟨⟨hjk, hjd⟩, hj2⟩ := hj
          rw [oframe j hj2]
          rw [iframe j (fun hc => hjd ((hclosk j).mp hc))]
          rw [hs1, lookupDomain_setPath_ne np hjk]
        · -- correctness
          intro j hj
          rw [inClos_cons] at hj
          rcases hj with hj | hj
          · rcases hj with hjeq | hdkj
            · -- j = k itself
              subst hjeq
              refine ⟨{ nk with path := np }, hlk', a, by simp [hnkpar], Or.inl ⟨rfl, rfl⟩⟩
            · -- j strictly below k
              obtain ⟨n', hn'2, pid, hpar, hdis⟩ := icorr j ((hclosk j).mpr hdkj)
              have hn'f : lookupDomain s' j = some n' := by
                rw [oframe j (hdisj j (Or.inr hdkj))]
                exact hn'2
              refine ⟨n', hn'f, pid, hpar, ?_⟩
              rcases hdis with ⟨hpid, hpath⟩ | ⟨hinc, q, hq2, hpath⟩
              · -- parent is k: its final path is np
                refine Or.inr ⟨⟨k, List.mem_cons_self k ks, Or.inl hpid⟩,
                  { nk with path := np }, ?_, ?_⟩
                · rw [hpid]; exact hlk'
                · rw [hpid]; simpa using hpath
              · -- parent strictly below k
                have hdkpid : Desc (parentMap s) k pid := (hclosk pid).mp hinc
                have hqf : lookupDomain s' pid = some q := by
                  rw [oframe pid (hdisj pid (Or.inr hdkpid))]
                  exact hq2
                exact Or.inr ⟨⟨k, List.mem_cons_self k ks, Or.inr hdkpid⟩, q, hqf, hpath⟩
          · -- j in the closure of the later kids
            obtain ⟨n', hn', pid, hpar, hdis⟩ := ocorr j hj
            refine ⟨n', hn', pid, hpar, ?_⟩
            rcases hdis with hdis | ⟨hinc, hq⟩
            · exact Or.inl hdis
            · refine Or.inr ⟨?_, hq⟩
              rw [inClos_cons]
              exact Or.inr hinc

/-- A successful repair walk never changes the `(id, parent)` columns. -/
theorem ucl_parentMap (fuel : Nat) :
    ∀ (s : Store) (kids : List Nat) (a : Nat) (p : String) (s' : Store),
      updateChildrenList fuel s kids a p = some s' → parentMap s' = parentMap s := by
  induction fuel with
  | zero =>
    intro s kids a p s' h
    simp [updateChildrenList] at h
  | succ f ih =>
    intro s kids a p s' h
    cases kids with
    | nil =>
      simp only [updateChildrenList, Option.some_inj] at h
      rw [← h]
    | cons k ks =>
      simp only [updateChildrenList] at h
      cases h6 : updateChildrenList f (setPath s k (childPathOf p a))
          (childIds (setPath s k (childPathOf p a)) k) k (childPathOf p a) with
      | none => rw [h6] at h; cases h
      | some s2 =>
        rw [h6] at h
        calc parentMap s' = parentMap s2 := ih s2 ks a p s' h
          _ = parentMap (setPath s k (childPathOf p a)) := ih _ _ _ _ _ h6
          _ = parentMap s := parentMap_setPath s k (childPathOf p a)

/-- If some listed child is an ancestor of itself (the parent graph has a
cycle through it), the repair walk diverges: it returns `none` at every
fuel, modelling the unbounded recursion of the source. -/
theorem ucl_cyc_none (fuel : Nat) :
    ∀ (s : Store) (kids : List Nat) (a : Nat) (p : String),
      (∃ k ∈ kids, Desc (parentMap s) k k) →
      updateChildrenList fuel s kids a p = none := by
  induction fuel with
  | zero => intro s kids a p _; rfl
  | succ f ih =>
    intro s kids a p hcyc
    obtain ⟨k0, hk0, hdesc⟩ := hcyc
    cases kids with
    | nil => cases hk0
    | cons k ks =>
      simp only [updateChildrenList]
      cases h6 : updateChildrenList f (setPath s k (childPathOf p a))
          (childIds (setPath s k (childPathOf p a)) k) k (childPathOf p a) with
      | none => rfl
      | some s2 =>
        rcases List.mem_cons.mp hk0 with rfl | hk0ks
        · -- the first child is cyclic: the inner walk must already diverge
          exfalso
          have pm1 : parentMap (setPath s k0 (childPathOf p a)) = parentMap s :=
            parentMap_setPath s k0 (childPathOf p a)
          obtain ⟨k', he, hor⟩ := desc_decomp hdesc
          have hk'cyc : Desc (parentMap s) k' k' := by
            rcases hor with heq | hd
            · exact Desc.child (heq ▸ he)
            · exact Desc.step hd he
          have : updateChildrenList f (setPath s k0 (childPathOf p a))
              (childIds (setPath s k0 (childPathOf p a)) k0) k0 (childPathOf p a) = none := by
            apply ih
            refine ⟨k', ?_, by rw [pm1]; exact hk'cyc⟩
            exact mem_childIds.mpr (by rw [pm1]; exact he)
          rw [this] at h6
          cases h6
        · -- a later child is cyclic
          have pm2 : parentMap s2 = parentMap s := by
            calc parentMap s2 = parentMap (setPath s k (childPathOf p a)) :=
                ucl_parentMap f _ _ _ _ _ h6
              _ = parentMap s := parentMap_setPath s k (childPathOf p a)
          exact ih s2 ks a p ⟨k0, hk0ks, by rw [pm2]; exact hdesc⟩

section ReparentLemmas

variable {s : Store} {r : Nat → Nat} {i : Nat} {par : Option Nat} {nm : String}

theorem mem_pm2_off {c : Nat} {q : Option Nat} (hc : c ≠ i) :
    (c, q) ∈ parentMap (updateFields s i nm par) ↔ (c, q) ∈ parentMap s := by
  rw [parentMap_updateFields]
  constructor
  · intro h
    obtain ⟨cp0, hcp0, heq⟩ := List.mem_map.mp h
    by_cases h0 : cp0.1 = i
    · rw [if_pos h0] at heq
      exact absurd (congrArg Prod.fst heq).symm (by simpa [h0] using hc)
    · rw [if_neg h0] at heq
      rw [← heq]
      exact hcp0
  · intro h
    refine List.mem_map.mpr ⟨(c, q), h, ?_⟩
    rw [if_neg hc]

theorem mem_pm2_self {q0 : Option Nat} (h : (i, q0) ∈ parentMap s) :
    (i, par) ∈ parentMap (updateFields s i nm par) := by
  rw [parentMap_updateFields]
  exact List.mem_map.mpr ⟨(i, q0), h, by simp⟩

theorem mem_pm2_self_eq {q : Option Nat}
    (h : (i, q) ∈ parentMap (updateFields s i nm par)) : q = par := by
  rw [parentMap_updateFields] at h
  obtain ⟨cp0, _, heq⟩ := List.mem_map.mp h
  by_cases h0 : cp0.1 = i
  · rw [if_pos h0] at heq
    exact (congrArg Prod.snd heq).symm
  · rw [if_neg h0] at heq
    exact absurd (congrArg Prod.fst heq) h0

theorem desc_pm2_of_desc (hr : RankedPM r (parentMap s)) {j : Nat}
    (h : Desc (parentMap s) i j) : Desc (parentMap (updateFields s i nm par)) i j := by
  induction h with
  | @child b he =>
    have hne : b ≠ i := by
      intro heq
      rw [heq] at he
      exact Nat.lt_irrefl _ (hr _ he _ rfl)
    exact Desc.child ((mem_pm2_off hne).mpr he)
  | @step b c hd he ih =>
    have hne : c ≠ i := by
      intro heq
      rw [heq] at he
      have h1 : r b < r i := hr (i, some b) he b rfl
      have h2 : r i < r b := desc_rank hr hd
      omega
    exact Desc.step ih ((mem_pm2_off hne).mpr he)

theorem desc_of_desc_pm2
    (hok : ∀ pid, par = some pid → pid ≠ i ∧ ¬ Desc (parentMap s) i pid) {j : Nat}
    (h : Desc (parentMap (updateFields s i nm par)) i j) : Desc (parentMap s) i j := by
  induction h with
  | @child b he =>
    by_cases hji : b = i
    · rw [hji] at he
      have heq := mem_pm2_self_eq he
      exact absurd rfl (hok i heq.symm).1
    · exact Desc.child ((mem_pm2_off hji).mp he)
  | @step b c hd he ih =>
    by_cases hci : c = i
    · rw [hci] at he
      have heq := mem_pm2_self_eq he
      exact absurd ih (hok b heq.symm).2
    · exact Desc.step ih ((mem_pm2_off hci).mp he)

/-- Re-parenting a node under a valid target (none, or an existing
non-descendant other than itself) preserves acyclicity: a new ranking can
be built from the old one by lifting the moved subtree. -/
theorem ranked_reparent (hu : UniqueIds s) (hr : RankedPM r (parentMap s))
    (hok : ∀ pid, par = some pid → pid ≠ i ∧ ¬ Desc (parentMap s) i pid) :
    ∃ r2, RankedPM r2 (parentMap (updateFields s i nm par)) := by
  classical
  cases par with
  | none =>
    refine ⟨r, ?_⟩
    rintro ⟨c, q⟩ hcq pid2 hq
    subst hq
    by_cases hc : c = i
    · subst hc
      exact absurd (mem_pm2_self_eq hcq) (by simp)
    · exact hr _ ((mem_pm2_off hc).mp hcq) _ rfl
  | some pid =>
    obtain ⟨hpidne, hpidnd⟩ := hok pid rfl
    refine ⟨fun n => if n = i ∨ Desc (parentMap s) i n then r n + r pid + 1 else r n, ?_⟩
    rintro ⟨c, q⟩ hcq pid2 hq
    subst hq
    simp only
    by_cases hc : c = i
    · subst hc
      have : some pid2 = some pid := mem_pm2_self_eq hcq
      cases this
      rw [if_pos (Or.inl rfl), if_neg]
      · omega
      · rintro (heq | hd)
        · exact hpidne heq
        · exact hpidnd hd
    · have hedge : (c, some pid2) ∈ parentMap s := (mem_pm2_off hc).mp hcq
      have hbase : r pid2 < r c := hr _ hedge _ rfl
      by_cases hcS : c = i ∨ Desc (parentMap s) i c
      · rcases hcS with heq | hdc
        · exact absurd heq hc
        · have hpidS : pid2 = i ∨ Desc (parentMap s) i pid2 := by
            obtain ⟨b, hb, hbor⟩ := desc_inversion hdc
            have heqb : some b = some pid2 :=
              parentMap_functional hu hb hedge
            cases heqb
            exact hbor
          rw [if_pos (Or.inr hdc), if_pos hpidS]
          omega
      · have hpidS : ¬ (pid2 = i ∨ Desc (parentMap s) i pid2) := by
          rintro (heq | hd)
          · subst heq
            exact hcS (Or.inr (Desc.child hedge))
          · exact hcS (Or.inr (Desc.step hd hedge))
        rw [if_neg hcS, if_neg hpidS]
        exact hbase
end ReparentLemmas

section SaveHelpers

theorem ids_updateFields (s : Store) (i : Nat) (nm : String) (np : Option Nat) :
    (updateFields s i nm np).map (fun n => n.id) = s.map fun n => n.id := by
  unfold updateFields
  rw [List.map_map]
  apply List.map_congr_left
  intro a _
  by_cases h : a.id = i <;> simp [h]

theorem lookupDomain_append_left {s : Store} {j : Nat} {q : DomainNode}
    (h : lookupDomain s j = some q) (t : Store) :
    lookupDomain (s ++ t) j = some q := by
  unfold lookupDomain at *
  rw [List.find?_append, h]
  rfl

/-- The closure of the full children list of `i` is exactly the strict
subtree below `i`. -/
theorem inClos_childIds {s : Store} {i j : Nat} :
    InClos (parentMap s) (childIds s i) j ↔ Desc (parentMap s) i j := by
  constructor
  · rintro ⟨k, hk, hor⟩
    have he : (k, some i) ∈ parentMap s := mem_childIds.mp hk
    rcases hor with rfl | hd
    · exact Desc.child he
    · exact desc_prepend he hd
  · intro hd
    obtain ⟨k, he, hor⟩ := desc_decomp hd
    exact ⟨k, mem_childIds.mpr he, hor⟩

/-- Invariant I3, descendant-to-prefix direction: on a table satisfying I1,
the path of a strict parent-descendant of `a` extends `a`'s child path. -/
theorem desc_prefix {s : Store} (hu : UniqueIds s) (hI1 : InvariantI1 s) {a b : Nat}
    (hd : Desc (parentMap s) a b) :
    ∃ na nb, lookupDomain s a = some na ∧ lookupDomain s b = some nb ∧
      (childPathOf na.path a).data <+: nb.path.data := by
  induction hd with
  | @child b he =>
    obtain ⟨nb, hnbmem, hnbid, hnbpar⟩ := mem_parentMap.mp he
    have hlb : lookupDomain s b = some nb := by rw [← hnbid]; exact mem_lookupDomain hu hnbmem
    have hok := hI1 nb hnbmem
    unfold PathOk at hok
    rw [hnbpar] at hok
    simp only [pathFromParent, Option.map_eq_some'] at hok
    obtain ⟨na, hla, hval⟩ := hok
    refine ⟨na, nb, hla, hlb, ?_⟩
    rw [← hval]
  | @step b c hd he ih =>
    obtain ⟨na, nb, hla, hlb, hpre⟩ := ih
    obtain ⟨nc, hncmem, hncid, hncpar⟩ := mem_parentMap.mp he
    have hlc : lookupDomain s c = some nc := by rw [← hncid]; exact mem_lookupDomain hu hncmem
    have hok := hI1 nc hncmem
    unfold PathOk at hok
    rw [hncpar] at hok
    simp only [pathFromParent, Option.map_eq_some'] at hok
    obtain ⟨nb2, hlb2, hval⟩ := hok
    rw [hlb] at hlb2
    cases hlb2
    have hnc : nc.path = childPathOf nb.path b := hval.symm
    refine ⟨na, nc, hla, hlc, ?_⟩
    rw [hnc, childPathOf_data]
    calc (childPathOf na.path _).data <+: nb.path.data := hpre
      _ <+: nb.path.data ++ ((natToStr b).data ++ ['/']) := List.prefix_append _ _
      _ = nb.path.data ++ (natToStr b).data ++ ['/'] := by rw [List.append_assoc]

/-- A successful move (`old_parent != parent` branch of `save`) can only
have had a valid target: re-parenting under the node itself or one of its
descendants makes the repair walk diverge. -/
theorem save_target_ok {s : Store} {r : Nat → Nat} {i : Nat} {nm : String}
    {par : Option Nat} {s' : Store} {old : DomainNode}
    (hu : UniqueIds s) (hr : RankedPM r (parentMap s))
    (hold : lookupDomain s i = some old) (hne : old.parent ≠ par)
    (hsave : saveExisting s i nm par = some s') :
    ∀ pid, par = some pid → pid ≠ i ∧ ¬ Desc (parentMap s) i pid := by
  intro pid hpar
  by_contra hcon
  push_neg at hcon
  have hbad : pid = i ∨ Desc (parentMap s) i pid := by
    by_cases hpi : pid = i
    · exact Or.inl hpi
    · exact Or.inr (hcon hpi)
  -- unfold the save to expose the repair walk
  unfold saveExisting at hsave
  rw [hold] at hsave
  cases hpp : pathFromParent s par with
  | none => rw [hpp] at hsave; cases hsave
  | some newPath =>
    simp only [hpp] at hsave
    rw [if_neg hne] at hsave
    -- the new parent graph has a cycle through i
    have hiold : (i, old.parent) ∈ parentMap s := by
      obtain ⟨hmem, hid⟩ := lookupDomain_mem hold
      exact mem_parentMap.mpr ⟨old, hmem, hid, rfl⟩
    have hiedge : (i, par) ∈ parentMap (updateFields s i nm par) := mem_pm2_self hiold
    have hcyc : Desc (parentMap (updateFields s i nm par)) i i := by
      rcases hbad with rfl | hd
      · exact Desc.child (hpar ▸ hiedge)
      · have h1 : Desc (parentMap (updateFields s i nm par)) i pid :=
          desc_pm2_of_desc hr hd
        exact Desc.step h1 (hpar ▸ hiedge)
    -- hence the walk diverges
    have pmeq : parentMap (setPath (updateFields s i nm par) i newPath) =
        parentMap (updateFields s i nm par) := parentMap_setPath _ i newPath
    obtain ⟨k, he, hor⟩ := desc_decomp hcyc
    have hkcyc : Desc (parentMap (updateFields s i nm par)) k k := by
      rcases hor with heq | hd
      · exact Desc.child (heq ▸ he)
      · exact Desc.step hd he
    have hnone : updateChildrenPaths
        (repairFuel (setPath (updateFields s i nm par) i newPath))
        (setPath (updateFields s i nm par) i newPath) i newPath = none := by
      unfold updateChildrenPaths
      apply ucl_cyc_none
      refine ⟨k, ?_, by rw [pmeq]; exact hkcyc⟩
      exact mem_childIds.mpr (by rw [pmeq]; exact he)
    rw [hnone] at hsave
    cases hsave

end SaveHelpers

/-- Full characterization of a successful `save` whose parent changed
(a move): the node's row gets the new name, parent and recomputed path,
every row outside the moved subtree is untouched, Invariant I1 holds
again for the whole table, and the subtree relation below the moved node
is unchanged. -/
theorem saveExisting_move_spec {s : Store} {r : Nat → Nat} {i : Nat} {nm : String}
    {par : Option Nat} {s' : Store} {old : DomainNode}
    (hu : UniqueIds s) (hr : RankedPM r (parentMap s)) (hI1 : InvariantI1 s)
    (hold : lookupDomain s i = some old) (hnepar : old.parent ≠ par)
    (hsave : saveExisting s i nm par = some s') :
    ∃ newPath,
      pathFromParent s par = some newPath ∧
      UniqueIds s' ∧
      lookupDomain s' i = some { old with name := nm, parent := par, path := newPath } ∧
      (∀ j, j ≠ i → ¬ Desc (parentMap s) i j → lookupDomain s' j = lookupDomain s j) ∧
      InvariantI1 s' ∧
      (∃ r2, RankedPM r2 (parentMap s')) ∧
      (∀ j, Desc (parentMap s) i j ↔ Desc (parentMap s') i j) := by
  have hok := save_target_ok hu hr hold hnepar hsave
  unfold saveExisting at hsave
  rw [hold] at hsave
  cases hpp : pathFromParent s par with
  | none => rw [hpp] at hsave; cases hsave
  | some newPath =>
    simp only [hpp] at hsave
    rw [if_neg hnepar] at hsave
    refine ⟨newPath, rfl, ?_⟩
    obtain ⟨holdmem, holdid⟩ := lookupDomain_mem hold
    have pms2 : parentMap (setPath (updateFields s i nm par) i newPath) =
        parentMap (updateFields s i nm par) := parentMap_setPath _ i newPath
    have hu1 : UniqueIds (updateFields s i nm par) := by
      unfold UniqueIds
      rw [ids_updateFields]
      exact hu
    have hu2 : UniqueIds (setPath (updateFields s i nm par) i newPath) :=
      uniqueIds_of_parentMap pms2.symm hu1
    obtain ⟨r2, hr2⟩ :=
      (ranked_reparent hu hr hok :
        ∃ r2, RankedPM r2 (parentMap (updateFields s i nm par)))
    have hr2s2 : RankedPM r2 (parentMap (setPath (updateFields s i nm par) i newPath)) := by
      rw [pms2]; exact hr2
    obtain ⟨mpm, mframe, mcorr⟩ :=
      ucl_master (repairFuel (setPath (updateFields s i nm par) i newPath))
        (setPath (updateFields s i nm par) i newPath)
        (childIds (setPath (updateFields s i nm par) i newPath) i) i newPath s' r2
        hu2 hr2s2 (fun k hk => mem_childIds.mp hk) (childIds_nodup hu2 i) hsave
    have pm' : parentMap s' = parentMap (updateFields s i nm par) := mpm.trans pms2
    have hu' : UniqueIds s' := uniqueIds_of_parentMap pm'.symm hu1
    have hclos : ∀ j, InClos (parentMap (setPath (updateFields s i nm par) i newPath))
        (childIds (setPath (updateFields s i nm par) i newPath) i) j ↔
          Desc (parentMap (updateFields s i nm par)) i j := by
      intro j
      rw [inClos_childIds, pms2]
    have descFwd : ∀ {j}, Desc (parentMap s) i j →
        Desc (parentMap (updateFields s i nm par)) i j := fun hd => desc_pm2_of_desc hr hd
    have descBack : ∀ {j}, Desc (parentMap (updateFields s i nm par)) i j →
        Desc (parentMap s) i j := fun hd => desc_of_desc_pm2 hok hd
    -- the row of the moved node
    have hlk1 : lookupDomain (updateFields s i nm par) i =
        some { old with name := nm, parent := par } := by
      rw [lookupDomain_updateFields, hold]
      simp [holdid]
    have hlk2 : lookupDomain (setPath (updateFields s i nm par) i newPath) i =
        some { old with name := nm, parent := par, path := newPath } := by
      rw [lookupDomain_setPath, hlk1]
      simp [holdid]
    have hinoclos : ¬ InClos (parentMap (setPath (updateFields s i nm par) i newPath))
        (childIds (setPath (updateFields s i nm par) i newPath) i) i := by
      rw [hclos]
      exact desc_irrefl hr2 i
    have hlooki : lookupDomain s' i =
        some { old with name := nm, parent := par, path := newPath } := by
      rw [mframe i hinoclos]
      exact hlk2
    have hframe : ∀ j, j ≠ i → ¬ Desc (parentMap s) i j →
        lookupDomain s' j = lookupDomain s j := by
      intro j hji hjd
      have hnd1 : ¬ Desc (parentMap (updateFields s i nm par)) i j :=
        fun hd => hjd (descBack hd)
      rw [mframe j (fun hc => hnd1 ((hclos j).mp hc))]
      rw [lookupDomain_setPath_ne newPath hji]
      rw [lookupDomain_updateFields_ne nm par hji]
    refine ⟨hu', hlooki, hframe, ?_, ⟨r2, by rw [pm']; exact hr2⟩, ?_⟩
    · -- Invariant I1 for the repaired table
      intro n' hmem'
      have hlookn' : lookupDomain s' n'.id = some n' := mem_lookupDomain hu' hmem'
      unfold PathOk
      by_cases hji : n'.id = i
      · -- the moved node itself
        rw [hji, hlooki] at hlookn'
        have hn' : n' = { old with name := nm, parent := par, path := newPath } :=
          (Option.some_inj.mp hlookn').symm
        rw [hn']
        cases hpar : par with
        | none =>
          rw [hpar] at hpp
          simp only [pathFromParent, Option.some_inj] at hpp
          simp [pathFromParent, ← hpp]
        | some pid =>
          rw [hpar] at hpp
          simp only [pathFromParent, Option.map_eq_some'] at hpp
          obtain ⟨q, hq, hval⟩ := hpp
          obtain ⟨hpidne, hpidnd⟩ := hok pid hpar
          have : lookupDomain s' pid = some q := by
            rw [hframe pid hpidne hpidnd]
            exact hq
          simp [pathFromParent, this, hval]
      · by_cases hdesc : Desc (parentMap (updateFields s i nm par)) i n'.id
        · -- a node of the moved subtree
          obtain ⟨n'', hn''look, pid', hpar', hdis⟩ := mcorr n'.id ((hclos _).mpr hdesc)
          rw [hlookn'] at hn''look
          obtain rfl := Option.some_inj.mp hn''look
          rw [hpar']
          rcases hdis with ⟨hpidi, hpath⟩ | ⟨_, q, hq', hpath⟩
          · rw [hpidi]
            simp [pathFromParent, hlooki, hpath]
          · simp [pathFromParent, hq', hpath]
        · -- outside the subtree: the old row with the old invariant
          have hlook : lookupDomain s' n'.id = lookupDomain s n'.id := by
            have hnd : ¬ Desc (parentMap s) i n'.id := fun hd => hdesc (descFwd hd)
            exact hframe n'.id hji hnd
          have hmem : n' ∈ s := by
            have hlook2 : lookupDomain s n'.id = some n' := by
              rw [← hlook]; exact hlookn'
            exact (lookupDomain_mem hlook2).1
          have hokold := hI1 n' hmem
          unfold PathOk at hokold
          cases hnp : n'.parent with
          | none =>
            rw [hnp] at hokold
            exact hokold
          | some pid3 =>
            rw [hnp] at hokold
            simp only [pathFromParent, Option.map_eq_some'] at hokold
            obtain ⟨q3, hq3, hval3⟩ := hokold
            have hedge : (n'.id, some pid3) ∈ parentMap s :=
              mem_parentMap.mpr ⟨n', hmem, rfl, hnp⟩
            have hedge1 : (n'.id, some pid3) ∈ parentMap (updateFields s i nm par) :=
              (mem_pm2_off hji).mpr hedge
            have hpid3ne : pid3 ≠ i := by
              intro heq
              rw [heq] at hedge1
              exact hdesc (Desc.child hedge1)
            have hpid3nd : ¬ Desc (parentMap (updateFields s i nm par)) i pid3 := by
              intro hd
              exact hdesc (Desc.step hd hedge1)
            have hlookpid3 : lookupDomain s' pid3 = some q3 := by
              rw [hframe pid3 hpid3ne (fun hd => hpid3nd (descFwd hd))]
              exact hq3
            simp [pathFromParent, hlookpid3, hval3]
    · -- the subtree relation below i is unchanged
      intro j
      rw [pm']
      exact ⟨fun hd => descFwd hd, fun hd => descBack hd⟩

/-- Re-saving a row with its stored name and parent leaves the table
unchanged. -/
theorem updateFields_self {s : Store} (hu : UniqueIds s) {i : Nat} {old : DomainNode}
    (hold : lookupDomain s i = some old) :
    updateFields s i old.name old.parent = s := by
  unfold updateFields
  conv_rhs => rw [← List.map_id s]
  apply List.map_congr_left
  intro n hn
  by_cases h : n.id = i
  · have hno : old = n := by
      have h1 := mem_lookupDomain hu hn
      rw [h, hold] at h1
      exact Option.some_inj.mp h1
    subst hno
    rw [if_pos h]
    rfl
  · simp [h]

/-- Characterization of a successful create: the new row is appended with
the path computed from its parent, nothing else changes, and Invariant I1
is preserved. -/
theorem createDomain_spec {s : Store} {newId : Nat} {nm : String} {par : Option Nat}
    {s' : Store} (hu : UniqueIds s) (hI1 : InvariantI1 s)
    (hfresh : newId ∉ s.map fun n => n.id)
    (hnoref : ∀ n ∈ s, n.parent ≠ some newId)
    (hc : createDomain s newId nm par = some s') :
    ∃ newPath, pathFromParent s par = some newPath ∧
      s' = s ++ [(⟨newId, nm, par, newPath⟩ : DomainNode)] ∧
      UniqueIds s' ∧ InvariantI1 s' := by
  unfold createDomain at hc
  cases hpp : pathFromParent s par with
  | none => rw [hpp] at hc; cases hc
  | some newPath =>
    simp only [hpp] at hc
    refine ⟨newPath, rfl, ?_⟩
    have hparne : par ≠ some newId := by
      intro he
      rw [he] at hpp
      simp only [pathFromParent, Option.map_eq_some'] at hpp
      obtain ⟨q, hq, _⟩ := hpp
      obtain ⟨hqmem, hqid⟩ := lookupDomain_mem hq
      exact hfresh (hqid ▸ List.mem_map_of_mem (fun n => n.id) hqmem)
    have hkids : childIds
        (s ++ [(⟨newId, nm, par, newPath⟩ : DomainNode)]) newId = [] := by
      unfold childIds
      rw [List.filter_append]
      have h1 : s.filter (fun n => n.parent = some newId) = [] :=
        List.filter_eq_nil_iff.mpr fun n hn => by simpa using hnoref n hn
      have h2 : ([(⟨newId, nm, par, newPath⟩ : DomainNode)] : Store).filter
          (fun n => n.parent = some newId) = [] := by
        simp [hparne]
      rw [h1, h2]
      rfl
    unfold updateChildrenPaths at hc
    rw [hkids] at hc
    have hfuel : repairFuel (s ++ [(⟨newId, nm, par, newPath⟩ : DomainNode)]) =
        2 * (s ++ [(⟨newId, nm, par, newPath⟩ : DomainNode)]).length + 1 + 1 := by
      unfold repairFuel
      omega
    rw [hfuel] at hc
    simp only [updateChildrenList, Option.some_inj] at hc
    subst hc
    have huniq : UniqueIds (s ++ [(⟨newId, nm, par, newPath⟩ : DomainNode)]) := by
      unfold UniqueIds
      rw [List.map_append, List.nodup_append]
      refine ⟨hu, by simp, ?_⟩
      intro x hx
      simp only [List.map_cons, List.map_nil, List.mem_singleton]
      intro he
      exact hfresh (he ▸ hx)
    refine ⟨rfl, huniq, ?_⟩
    intro n hn
    unfold PathOk
    rcases List.mem_append.mp hn with hns | hnnew
    · have hok := hI1 n hns
      unfold PathOk at hok
      cases hnp : n.parent with
      | none => rw [hnp] at hok; exact hok
      | some pid =>
        rw [hnp] at hok
        simp only [pathFromParent, Option.map_eq_some'] at hok
        obtain ⟨q, hq, hval⟩ := hok
        simp only [pathFromParent, Option.map_eq_some']
        exact ⟨q, lookupDomain_append_left hq _, hval⟩
    · rw [List.mem_singleton.mp hnnew]
      cases hpar2 : par with
      | none =>
        rw [hpar2] at hpp
        simp only [pathFromParent, Option.some_inj] at hpp ⊢
        exact hpp
      | some pid =>
        rw [hpar2] at hpp
        simp only [pathFromParent, Option.map_eq_some'] at hpp ⊢
        obtain ⟨q, hq, hval⟩ := hpp
        exact ⟨q, lookupDomain_append_left hq _, hval⟩

/-- C2: Invariant I1 (path correctness) holds after every create and after
every completed move: for every row, its path is its parent's path
followed by the parent id and `/` when it has a parent, and `/`
otherwise.  Creates assume a fresh primary key (which the database
assigns); moves are any successful `save` of an existing row with a new
parent. -/
theorem C2_I1_after_create_and_move (s : Store) (r : Nat → Nat)
    (hu : UniqueIds s) (hr : RankedPM r (parentMap s)) (hI1 : InvariantI1 s) :
    (∀ newId nm par s', newId ∉ s.map (fun n => n.id) →
      (∀ n ∈ s, n.parent ≠ some newId) →
      createDomain s newId nm par = some s' → InvariantI1 s') ∧
    (∀ i par s', moveDomain s i par = some s' → InvariantI1 s') := by
  constructor
  · intro newId nm par s' hfresh hnoref hc
    obtain ⟨np, _, _, _, hI1'⟩ := createDomain_spec hu hI1 hfresh hnoref hc
    exact hI1'
  · intro i par s' hmv
    unfold moveDomain at hmv
    cases hold : lookupDomain s i with
    | none => rw [hold] at hmv; cases hmv
    | some old =>
      rw [hold] at hmv
      by_cases hsame : old.parent = par
      · unfold saveExisting at hmv
        rw [hold] at hmv
        cases hpp : pathFromParent s par with
        | none => rw [hpp] at hmv; cases hmv
        | some np =>
          simp only [hpp] at hmv
          rw [if_pos hsame] at hmv
          have hs' : s' = updateFields s i old.name par := (Option.some_inj.mp hmv).symm
          rw [hs', ← hsame, updateFields_self hu hold]
          exact hI1
      · obtain ⟨np, _, _, _, _, hI1', _, _⟩ :=
          saveExisting_move_spec hu hr hI1 hold hsame hmv
        exact hI1'

/-- Witness for C2 at a concrete table: creating node 4 under node 2 of
the three-node demo table and moving node 2 to the top level both yield
tables satisfying Invariant I1. -/
theorem C2_witness :
    InvariantI1 (demo3 ++ [⟨4, "N", some 2, "/1/2/"⟩]) ∧
    InvariantI1 [⟨1, "Root", none, "/"⟩, ⟨2, "C", none, "/"⟩, ⟨3, "G", some 2, "/2/"⟩] :=
  ⟨(C2_I1_after_create_and_move demo3 (fun n => n) (by decide) (by decide) (by decide)).1
      4 "N" (some 2) _ (by decide) (by decide) (by decide),
   (C2_I1_after_create_and_move demo3 (fun n => n) (by decide) (by decide) (by decide)).2
      2 none _ (by decide)⟩

/-- C3: after a completed `move(x, newParent)`, every node that was a
strict descendant of `x` before the move has a path that starts with
`x`'s *new* path followed by `x.id` and `/`: the repair walk covers the
entire subtree before the operation returns. -/
theorem C3_move_repairs_subtree (s : Store) (r : Nat → Nat) (i : Nat)
    (par : Option Nat) (s' : Store)
    (hu : UniqueIds s) (hr : RankedPM r (parentMap s)) (hI1 : InvariantI1 s)
    (hmv : moveDomain s i par = some s') :
    ∀ j, Desc (parentMap s) i j →
      ∃ x' n', lookupDomain s' i = some x' ∧ lookupDomain s' j = some n' ∧
        startswith n'.path (childPathOf x'.path i) = true := by
  intro j hdj
  unfold moveDomain at hmv
  cases hold : lookupDomain s i with
  | none => rw [hold] at hmv; cases hmv
  | some old =>
    rw [hold] at hmv
    by_cases hsame : old.parent = par
    · -- the parent did not change: the table is unchanged and I1 already
      -- gave the prefix property
      unfold saveExisting at hmv
      rw [hold] at hmv
      cases hpp : pathFromParent s par with
      | none => rw [hpp] at hmv; cases hmv
      | some np =>
        simp only [hpp] at hmv
        rw [if_pos hsame] at hmv
        have hs' : s' = updateFields s i old.name par := (Option.some_inj.mp hmv).symm
        rw [hs', ← hsame, updateFields_self hu hold]
        obtain ⟨na, nb, hla, hlb, hpre⟩ := desc_prefix hu hI1 hdj
        refine ⟨na, nb, hla, hlb, ?_⟩
        rw [startswith_iff]
        exact hpre
    · obtain ⟨np, _, hu', hlooki, _, hI1', ⟨r2, hr2⟩, hiff⟩ :=
        saveExisting_move_spec hu hr hI1 hold hsame hmv
      obtain ⟨na, nb, hla, hlb, hpre⟩ := desc_prefix hu' hI1' ((hiff j).mp hdj)
      refine ⟨na, nb, hla, hlb, ?_⟩
      rw [startswith_iff]
      exact hpre

/-- Witness for C3 at a concrete table: after moving `C` (node 2) of the
demo table to the top level, the old descendant `G` (node 3) has a path
starting with `C`'s new child prefix `/2/`. -/
theorem C3_witness :
    ∃ x' n',
      lookupDomain [⟨1, "Root", none, "/"⟩, ⟨2, "C", none, "/"⟩, ⟨3, "G", some 2, "/2/"⟩] 2 =
        some x' ∧
      lookupDomain [⟨1, "Root", none, "/"⟩, ⟨2, "C", none, "/"⟩, ⟨3, "G", some 2, "/2/"⟩] 3 =
        some n' ∧
      startswith n'.path (childPathOf x'.path 2) = true :=
  C3_move_repairs_subtree demo3 (fun n => n) 2 none
    [⟨1, "Root", none, "/"⟩, ⟨2, "C", none, "/"⟩, ⟨3, "G", some 2, "/2/"⟩]
    (by decide) (by decide) (by decide) (by decide) 3 (Desc.child (by decide))

/-- C10: saving an existing row whose parent is unchanged (for example a
rename) changes no stored path anywhere in the table, and no subtree
repair runs (the saved row only gets its new name). -/
theorem C10_rename_keeps_paths (s : Store) (i : Nat) (nm : String) (par : Option Nat)
    (old : DomainNode) (s' : Store)
    (hold : lookupDomain s i = some old) (hpar : old.parent = par)
    (hsv : saveExisting s i nm par = some s') :
    (∀ j, (lookupDomain s' j).map (fun n => n.path) =
      (lookupDomain s j).map fun n => n.path) ∧
    (lookupDomain s' i).map (fun n => n.name) = some nm ∧
    (∀ j, (lookupDomain s' j).map (fun n => n.parent) =
      (lookupDomain s j).map fun n => n.parent) := by
  unfold saveExisting at hsv
  rw [hold] at hsv
  cases hpp : pathFromParent s par with
  | none => rw [hpp] at hsv; cases hsv
  | some np =>
    simp only [hpp] at hsv
    rw [if_pos hpar] at hsv
    have hs' : s' = updateFields s i nm par := (Option.some_inj.mp hsv).symm
    subst hs'
    obtain ⟨holdmem, holdid⟩ := lookupDomain_mem hold
    refine ⟨?_, ?_, ?_⟩
    · intro j
      rw [lookupDomain_updateFields]
      cases lookupDomain s j with
      | none => rfl
      | some n => by_cases h : n.id = i <;> simp [h]
    · rw [lookupDomain_updateFields, hold]
      simp [holdid]
    · intro j
      rw [lookupDomain_updateFields]
      cases hlj : lookupDomain s j with
      | none => rfl
      | some n =>
        by_cases h : n.id = i
        · have hji : j = i := by
            have h2 := (lookupDomain_mem hlj).2
            rw [h] at h2
            exact h2.symm
          have hno : n = old := by
            rw [hji, hold] at hlj
            exact (Option.some_inj.mp hlj).symm
          simp [h, hno, ← hpar, holdid]
        · simp [h]

/-- Witness for C10: renaming node 2 of the demo table keeps the paths of
nodes 2 and 3 and stores the new name. -/
theorem C10_witness :
    (lookupDomain [⟨1, "Root", none, "/"⟩, ⟨2, "Renamed", some 1, "/1/"⟩,
        ⟨3, "G", some 2, "/1/2/"⟩] 3).map (fun n => n.path) =
      (lookupDomain demo3 3).map (fun n => n.path) ∧
    (lookupDomain [⟨1, "Root", none, "/"⟩, ⟨2, "Renamed", some 1, "/1/"⟩,
        ⟨3, "G", some 2, "/1/2/"⟩] 2).map (fun n => n.name) = some "Renamed" :=
  ⟨(C10_rename_keeps_paths demo3 2 "Renamed" (some 1) ⟨2, "C", some 1, "/1/"⟩ _
      (by decide) (by decide) (by decide)).1 3,
   (C10_rename_keeps_paths demo3 2 "Renamed" (some 1) ⟨2, "C", some 1, "/1/"⟩ _
      (by decide) (by decide) (by decide)).2.1⟩

/-- C1 (failing input): `Domain.save` has no cycle or self-parent check.
Re-parenting the root of the two-node table `Root(1) ← C(2)` under its own
child `C` (or under itself) is not rejected with any `InvalidHierarchy`
signal: `save` first persists the new parent and the new path and then
recurses over the now-cyclic children relation forever — the repair walk
returns `none` (a crash) at every fuel, after the mutation has already
been written.  The third conjunct shows the divergence on the exact
mutated table (`Root` re-parented under `C` with path already rewritten to
`/1/2/`) for every finite recursion depth. -/
theorem C1_cycle_move_not_rejected :
    moveDomain [⟨1, "Root", none, "/"⟩, ⟨2, "C", some 1, "/1/"⟩] 1 (some 2) = none ∧
    moveDomain [⟨1, "Root", none, "/"⟩, ⟨2, "C", some 1, "/1/"⟩] 1 (some 1) = none ∧
    ∀ fuel, updateChildrenPaths fuel
      [⟨1, "Root", some 2, "/1/2/"⟩, ⟨2, "C", some 1, "/1/"⟩] 1 "/1/2/" = none := by
  refine ⟨by decide, by decide, ?_⟩
  intro fuel
  unfold updateChildrenPaths
  apply ucl_cyc_none
  refine ⟨2, by decide, ?_⟩
  have h1 : Desc (parentMap [⟨1, "Root", some 2, "/1/2/"⟩, ⟨2, "C", some 1, "/1/"⟩]) 2 1 :=
    Desc.child (by decide)
  exact Desc.step h1 (by decide)

section PathStringLemmas

/-- Every path of a table satisfying I1 ends with the delimiter. -/
theorem path_ends_slash {s : Store} (hI1 : InvariantI1 s) {n : DomainNode}
    (hn : n ∈ s) : ∃ l, n.path.data = l ++ ['/'] := by
  have hok := hI1 n hn
  unfold PathOk at hok
  cases hnp : n.parent with
  | none =>
    rw [hnp] at hok
    simp only [pathFromParent, Option.some_inj] at hok
    exact ⟨[], by rw [← hok]; rfl⟩
  | some pid =>
    rw [hnp] at hok
    simp only [pathFromParent, Option.map_eq_some'] at hok
    obtain ⟨q, _, hval⟩ := hok
    refine ⟨q.path.data ++ (natToStr pid).data, ?_⟩
    rw [← hval, childPathOf_data]

/-- If a concatenation ending in a nonempty block has last element `'/'`,
the block contains `'/'`. -/
theorem last_slash_of_append {A t : List Char} (hne : t ≠ [])
    (h : (A ++ t).getLast? = some '/') : '/' ∈ t := by
  rw [List.getLast?_append] at h
  cases hc : t.getLast? with
  | none => rw [List.getLast?_eq_none_iff] at hc; exact absurd hc hne
  | some z =>
    rw [hc] at h
    simp only [Option.or_some, Option.some_inj] at h
    exact h ▸ List.mem_of_getLast?_eq_some hc

/-- Splitting off the last id segment of two equal slash-terminated
strings: a string ending in the delimiter followed by a delimiter-free
block determines both parts. -/
theorem slash_block_decomp {x' y' u v : List Char}
    (hu : '/' ∉ u) (hv : '/' ∉ v)
    (h : (x' ++ ['/']) ++ u = (y' ++ ['/']) ++ v) :
    x' = y' ∧ u = v := by
  rcases List.append_eq_append_iff.mp h with ⟨t, ht1, ht2⟩ | ⟨t, ht1, ht2⟩
  · cases t with
    | nil =>
      simp only [List.append_nil] at ht1 ht2
      have h2 := List.append_inj' ht1.symm rfl
      refine ⟨h2.1, ?_⟩
      rw [ht2]
      rfl
    | cons c cs =>
      exfalso
      have hlast : ((x' ++ ['/']) ++ (c :: cs)).getLast? = some '/' := by
        rw [← ht1, List.getLast?_concat]
      have hmem : '/' ∈ c :: cs := last_slash_of_append (by simp) hlast
      exact hu (ht2 ▸ List.mem_append_left v hmem)
  · cases t with
    | nil =>
      simp only [List.append_nil] at ht1 ht2
      have h2 := List.append_inj' ht1 rfl
      refine ⟨h2.1, ?_⟩
      rw [ht2]
      rfl
    | cons c cs =>
      exfalso
      have hlast : ((y' ++ ['/']) ++ (c :: cs)).getLast? = some '/' := by
        rw [← ht1, List.getLast?_concat]
      have hmem : '/' ∈ c :: cs := last_slash_of_append (by simp) hlast
      exact hv (ht2 ▸ List.mem_append_left u hmem)

/-- Two equal child paths built on slash-terminated bases have equal bases
and equal ids. -/
theorem childPath_inj {pa pb : String} {m n : Nat}
    (ha : ∃ x, pa.data = x ++ ['/']) (hb : ∃ y, pb.data = y ++ ['/'])
    (h : (childPathOf pa m).data = (childPathOf pb n).data) :
    pa.data = pb.data ∧ m = n := by
  obtain ⟨x, hx⟩ := ha
  obtain ⟨y, hy⟩ := hb
  rw [childPathOf_data, childPathOf_data] at h
  have h1 : pa.data ++ (natToStr m).data = pb.data ++ (natToStr n).data :=
    (List.append_inj' h rfl).1
  rw [hx, hy] at h1
  obtain ⟨hxy, huv⟩ :=
    slash_block_decomp (slash_not_mem_natToStr m) (slash_not_mem_natToStr n) h1
  have hmn : m = n := by
    have := pyInt_natToStr m
    rw [huv, pyInt_natToStr] at this
    exact Option.some_inj.mp this.symm
  exact ⟨by rw [hx, hy, hxy], hmn⟩

/-- Invariant I3, prefix-to-descendant direction: on a valid table, if
`b`'s path extends `a`'s child path then `b` is a strict
parent-descendant of `a`. -/
theorem prefix_desc {s : Store} {r : Nat → Nat} (hu : UniqueIds s)
    (hr : RankedPM r (parentMap s)) (hI1 : InvariantI1 s) :
    ∀ a b : DomainNode, a ∈ s → b ∈ s →
      (childPathOf a.path a.id).data <+: b.path.data →
      Desc (parentMap s) a.id b.id := by
  have main : ∀ k, ∀ a b : DomainNode, a ∈ s → b ∈ s → r b.id < k →
      (childPathOf a.path a.id).data <+: b.path.data →
      Desc (parentMap s) a.id b.id := by
    intro k
    induction k with
    | zero => intro a b _ _ hk; omega
    | succ K ih =>
      intro a b ha hb hk hpre
      have hokb := hI1 b hb
      unfold PathOk at hokb
      cases hbp : b.parent with
      | none =>
        exfalso
        rw [hbp] at hokb
        simp only [pathFromParent, Option.some_inj] at hokb
        have hlen := hpre.length_le
        rw [childPathOf_data, ← hokb] at hlen
        obtain ⟨x, hx⟩ := path_ends_slash hI1 ha
        have hd : (natToStr a.id).data ≠ [] := natToStr_ne_nil a.id
        have h1 : ("/" : String).data = ['/'] := rfl
        rw [hx, h1] at hlen
        simp only [List.length_append, List.length_cons, List.length_nil,
          List.length_singleton] at hlen
        have : (natToStr a.id).data.length ≥ 1 := by
          cases hcc : (natToStr a.id).data with
          | nil => exact absurd hcc hd
          | cons c cs => simp
        omega
      | some pid =>
        rw [hbp] at hokb
        simp only [pathFromParent, Option.map_eq_some'] at hokb
        obtain ⟨q, hq, hval⟩ := hokb
        obtain ⟨hqmem, hqid⟩ := lookupDomain_mem hq
        have hedge : (b.id, some pid) ∈ parentMap s := mem_parentMap.mpr ⟨b, hb, rfl, hbp⟩
        have hrank : r pid < r b.id := hr _ hedge _ rfl
        have hbdata : b.path.data = (q.path.data ++ (natToStr pid).data) ++ ['/'] := by
          rw [← hval, childPathOf_data]
        by_cases hle : (childPathOf a.path a.id).data.length ≤ q.path.data.length
        · -- the prefix already ends inside the parent's path: recurse
          have hpre1 : (childPathOf a.path a.id).data <+:
              q.path.data ++ (natToStr pid).data := by
            apply List.prefix_of_prefix_length_le (by rw [hbdata] at hpre; exact hpre)
              (List.prefix_append _ _)
            have := List.length_append q.path.data (natToStr pid).data
            omega
          have hpre2 : (childPathOf a.path a.id).data <+: q.path.data :=
            List.prefix_of_prefix_length_le hpre1 (List.prefix_append _ _) hle
          have hdq : Desc (parentMap s) a.id q.id :=
            ih a q ha hqmem (by rw [hqid]; omega) hpre2
          rw [hqid] at hdq
          exact Desc.step hdq hedge
        · -- the prefix reaches the digit block: it must be the whole path
          push_neg at hle
          have hPeq : (childPathOf a.path a.id).data = b.path.data := by
            by_cases hle2 : (childPathOf a.path a.id).data.length ≤
                (q.path.data ++ (natToStr pid).data).length
            · exfalso
              -- the prefix would end with '/' strictly inside the digit block
              have hpre1 : (childPathOf a.path a.id).data <+:
                  q.path.data ++ (natToStr pid).data := by
                apply List.prefix_of_prefix_length_le
                  (by rw [hbdata] at hpre; exact hpre) (List.prefix_append _ _) hle2
              have hqpre : q.path.data <+: (childPathOf a.path a.id).data := by
                apply List.prefix_of_prefix_length_le (List.prefix_append _ _) hpre1
                omega
              obtain ⟨w, hw⟩ := hqpre
              have hwne : w ≠ [] := by
                intro he
                rw [he, List.append_nil] at hw
                rw [← hw] at hle
                omega
              have hwpre : w <+: (natToStr pid).data := by
                rw [← hw] at hpre1
                exact (List.prefix_append_right_inj q.path.data).mp hpre1
              -- w ends with '/', but sits inside the digit block
              obtain ⟨x, hx⟩ := path_ends_slash hI1 ha
              have hPlast : (childPathOf a.path a.id).data.getLast? = some '/' := by
                rw [childPathOf_data, List.getLast?_concat]
              rw [← hw] at hPlast
              have hmemw : '/' ∈ w := last_slash_of_append hwne hPlast
              exact slash_not_mem_natToStr pid (hwpre.subset hmemw)
            · push_neg at hle2
              apply hpre.eq_of_length
              have hlb := hpre.length_le
              rw [hbdata]
              rw [hbdata] at hlb
              simp only [List.length_append, List.length_singleton] at hlb hle2 ⊢
              omega
          -- decompose the equality of the two child paths
          have hinj : a.path.data = q.path.data ∧ a.id = pid := by
            apply childPath_inj (path_ends_slash hI1 ha) (path_ends_slash hI1 hqmem)
            rw [hPeq, hbdata, childPathOf_data]
          rw [← hinj.2] at hedge
          exact Desc.child hedge
  intro a b ha hb hpre
  exact main (r b.id + 1) a b ha hb (by omega) hpre

end PathStringLemmas

/-- C4: for a non-admin caller whose home domain is `h`, a domain `d` is
visible exactly when `d` is `h` itself or a strict descendant of `h` in
the parent forest; in particular the parent of `h` is never visible.
(`user_domain == domain` compares primary keys, Django model equality.) -/
theorem C4_visibility_downward_only (s : Store) (r : Nat → Nat) (u : Caller)
    (h : DomainNode) (hu : UniqueIds s) (hr : RankedPM r (parentMap s))
    (hI1 : InvariantI1 s) (hstaff : u.is_staff = false)
    (hhome : u.domain = some h) (hmem : h ∈ s) :
    (∀ d ∈ s, user_can_access_domain u d = true ↔
      (d.id = h.id ∨ Desc (parentMap s) h.id d.id)) ∧
    (∀ pid hp, h.parent = some pid → lookupDomain s pid = some hp →
      user_can_access_domain u hp = false) := by
  have hacc : ∀ d : DomainNode, user_can_access_domain u d =
      (if h.id = d.id then true else if is_ancestor_of h d then true else false) := by
    intro d
    unfold user_can_access_domain get_user_domain
    rw [hstaff, hhome]
    rfl
  constructor
  · intro d hd
    rw [hacc]
    constructor
    · intro hv
      by_cases heq : h.id = d.id
      · exact Or.inl heq.symm
      · rw [if_neg heq] at hv
        by_cases hanc : is_ancestor_of h d
        · refine Or.inr ?_
          rw [is_ancestor_of, startswith_iff] at hanc
          exact prefix_desc hu hr hI1 h d hmem hd hanc
        · rw [if_neg hanc] at hv
          cases hv
    · intro hv
      rcases hv with heq | hdesc
      · rw [if_pos heq.symm]
      · by_cases heq : h.id = d.id
        · rw [if_pos heq]
        · rw [if_neg heq]
          have hanc : is_ancestor_of h d = true := by
            obtain ⟨na, nb, hla, hlb, hpre⟩ := desc_prefix hu hI1 hdesc
            have hna : na = h := by
              have := mem_lookupDomain hu hmem
              rw [this] at hla
              exact Option.some_inj.mp hla.symm
            have hnb : nb = d := by
              have := mem_lookupDomain hu hd
              rw [this] at hlb
              exact Option.some_inj.mp hlb.symm
            rw [is_ancestor_of, startswith_iff]
            rw [hna] at hpre
            rw [hnb] at hpre
            exact hpre
          rw [hanc]
          rfl
  · intro pid hp hpar hlp
    obtain ⟨hpmem, hpid⟩ := lookupDomain_mem hlp
    have hedge : (h.id, some pid) ∈ parentMap s := mem_parentMap.mpr ⟨h, hmem, rfl, hpar⟩
    have hrank : r pid < r h.id := hr _ hedge _ rfl
    rw [hacc]
    have hne : h.id ≠ hp.id := by
      rw [hpid]
      intro he
      rw [he] at hrank
      omega
    rw [if_neg hne]
    have hanc : ¬ is_ancestor_of h hp = true := by
      intro hanc
      rw [is_ancestor_of, startswith_iff] at hanc
      have hdesc := prefix_desc hu hr hI1 h hp hmem hpmem hanc
      rw [hpid] at hdesc
      exact desc_irrefl hr h.id (Desc.step hdesc hedge)
    simp only [hanc]
    rfl

/-- Witness for C4 on the demo table: the caller homed at `C` (node 2)
sees `C` and its child `G` but not the parent `Root`. -/
theorem C4_witness :
    user_can_access_domain ⟨false, some ⟨2, "C", some 1, "/1/"⟩⟩ ⟨1, "Root", none, "/"⟩ = false :=
  (C4_visibility_downward_only demo3 (fun n => n) ⟨false, some ⟨2, "C", some 1, "/1/"⟩⟩
      ⟨2, "C", some 1, "/1/"⟩ (by decide) (by decide) (by decide) (by decide) (by decide)
      (by decide)).2 1 ⟨1, "Root", none, "/"⟩ (by decide) (by decide)

/-- C6: an admin caller (`is_staff`) gets any entity collection back
unchanged from the domain filter, whatever the entities' domains and the
caller's own domain are. -/
theorem C6_admin_bypass (s : Store) (qs : List Entity) (u : Caller)
    (hstaff : u.is_staff = true) : filter_by_domain s qs u = qs := by
  unfold filter_by_domain
  rw [hstaff]
  rfl

/-- Witness for C6: an admin with no home domain keeps a list with
domainless and domain-tagged entities unchanged. -/
theorem C6_witness :
    filter_by_domain demo3
      [⟨10, none⟩, ⟨11, some ⟨1, "Root", none, "/"⟩⟩] ⟨true, none⟩ =
      [⟨10, none⟩, ⟨11, some ⟨1, "Root", none, "/"⟩⟩] :=
  C6_admin_bypass demo3 [⟨10, none⟩, ⟨11, some ⟨1, "Root", none, "/"⟩⟩] ⟨true, none⟩ rfl

/-- C7: for a non-admin caller the domain filter never returns an entity
without a domain, and a domainless entity is never visible. -/
theorem C7_no_domain_excluded (u : Caller) (hstaff : u.is_staff = false) :
    (∀ (s : Store) (qs : List Entity) (e : Entity),
      e ∈ filter_by_domain s qs u → e.domain ≠ none) ∧
    (∀ e : Entity, e.domain = none → user_can_access_entity u e = false) := by
  constructor
  · intro s qs e hmem
    unfold filter_by_domain at hmem
    rw [hstaff] at hmem
    simp only [Bool.false_eq_true, if_false] at hmem
    by_cases hids : get_user_accessible_domain_ids s u = []
    · rw [if_pos hids] at hmem
      cases hmem
    · rw [if_neg hids] at hmem
      have hpred := (List.mem_filter.mp hmem).2
      intro hnone
      rw [hnone] at hpred
      cases hpred
  · intro e hnone
    unfold user_can_access_entity
    rw [hstaff, hnone]
    rfl

/-- Witness for C7: a non-admin caller homed at the demo root filters out
a domainless entity, and cannot access it. -/
theorem C7_witness :
    (⟨10, none⟩ : Entity) ∉ filter_by_domain demo3
      [⟨10, none⟩, ⟨11, some ⟨1, "Root", none, "/"⟩⟩]
      ⟨false, some ⟨1, "Root", none, "/"⟩⟩ ∧
    user_can_access_entity ⟨false, some ⟨1, "Root", none, "/"⟩⟩ ⟨10, none⟩ = false :=
  ⟨fun hmem => (C7_no_domain_excluded ⟨false, some ⟨1, "Root", none, "/"⟩⟩ rfl).1
      demo3 [⟨10, none⟩, ⟨11, some ⟨1, "Root", none, "/"⟩⟩] ⟨10, none⟩ hmem rfl,
   (C7_no_domain_excluded ⟨false, some ⟨1, "Root", none, "/"⟩⟩ rfl).2 ⟨10, none⟩ rfl⟩

/-- C8: a non-admin caller with no home domain has an empty accessible-id
set, and the domain filter returns the empty collection on any input;
both helpers are total functions and signal no error. -/
theorem C8_domainless_sees_nothing (u : Caller) (hstaff : u.is_staff = false)
    (hnodom : u.domain = none) :
    (∀ s : Store, get_user_accessible_domain_ids s u = []) ∧
    (∀ (s : Store) (qs : List Entity), filter_by_domain s qs u = []) := by
  have hids : ∀ s : Store, get_user_accessible_domain_ids s u = [] := by
    intro s
    unfold get_user_accessible_domain_ids get_user_domain
    rw [hnodom]
  refine ⟨hids, ?_⟩
  intro s qs
  unfold filter_by_domain
  rw [hstaff]
  simp only [Bool.false_eq_true, if_false]
  rw [if_pos (hids s)]

/-- Witness for C8: a domainless non-admin caller gets no accessible ids
and an empty filter result on a nonempty entity list. -/
theorem C8_witness :
    get_user_accessible_domain_ids demo3 ⟨false, none⟩ = [] ∧
    filter_by_domain demo3 [⟨10, none⟩, ⟨11, some ⟨1, "Root", none, "/"⟩⟩]
      ⟨false, none⟩ = [] :=
  ⟨(C8_domainless_sees_nothing ⟨false, none⟩ rfl rfl).1 demo3,
   (C8_domainless_sees_nothing ⟨false, none⟩ rfl rfl).2 demo3
      [⟨10, none⟩, ⟨11, some ⟨1, "Root", none, "/"⟩⟩]⟩

section DeleteLemmas

theorem iterCascade_supset (s : Store) : ∀ (m : Nat) (cur : List Nat) (j : Nat),
    j ∈ cur → j ∈ iterCascade s m cur := by
  intro m
  induction m with
  | zero => intro cur j hj; exact hj
  | succ m ih =>
    intro cur j hj
    unfold iterCascade
    exact ih _ j (List.mem_append_left _ hj)

theorem iterCascade_sound {s : Store} {x : Nat} : ∀ (m : Nat) (cur : List Nat),
    (∀ j' ∈ cur, j' = x ∨ Desc (parentMap s) x j') →
    ∀ j ∈ iterCascade s m cur, j = x ∨ Desc (parentMap s) x j := by
  intro m
  induction m with
  | zero => intro cur hinv j hj; exact hinv j hj
  | succ m ih =>
    intro cur hinv j hj
    unfold iterCascade at hj
    refine ih _ ?_ j hj
    intro j' hj'
    unfold cascadeStep at hj'
    rcases List.mem_append.mp hj' with hmem | hmem
    · exact hinv j' hmem
    · obtain ⟨n, hn, rfl⟩ := List.mem_map.mp hmem
      have hfil := List.mem_filter.mp hn
      cases hnp : n.parent with
      | none => rw [hnp] at hfil; cases hfil.2
      | some p =>
        rw [hnp] at hfil
        have hcond := hfil.2
        simp only [Bool.and_eq_true, decide_eq_true_eq] at hcond
        have hedge : (n.id, some p) ∈ parentMap s :=
          mem_parentMap.mpr ⟨n, hfil.1, rfl, hnp⟩
        rcases hinv p hcond.1 with rfl | hd
        · exact Or.inr (Desc.child hedge)
        · exact Or.inr (Desc.step hd hedge)

theorem iterCascade_complete {s : Store} {r : Nat → Nat}
    (hr : RankedPM r (parentMap s)) : ∀ (m : Nat) (cur : List Nat) (a j : Nat),
    a ∈ cur → (j = a ∨ Desc (parentMap s) a j) → r j ≤ r a + m →
    j ∈ iterCascade s m cur := by
  intro m
  induction m with
  | zero =>
    intro cur a j ha hj hrk
    rcases hj with rfl | hd
    · exact ha
    · have := desc_rank hr hd
      omega
  | succ m ih =>
    intro cur a j ha hj hrk
    unfold iterCascade
    rcases hj with rfl | hd
    · exact ih _ j j (List.mem_append_left _ ha) (Or.inl rfl) (by omega)
    · obtain ⟨k, he, hor⟩ := desc_decomp hd
      obtain ⟨n, hn, hnid, hnp⟩ := mem_parentMap.mp he
      have hkrank : r a < r k := hr _ he _ rfl
      have hkmem : k ∈ cascadeStep s cur := by
        unfold cascadeStep
        by_cases hk : k ∈ cur
        · exact List.mem_append_left _ hk
        · refine List.mem_append_right _ ?_
          refine List.mem_map.mpr ⟨n, ?_, hnid⟩
          refine List.mem_filter.mpr ⟨hn, ?_⟩
          rw [hnp]
          simp only [Bool.and_eq_true, decide_eq_true_eq]
          exact ⟨ha, by rw [hnid]; exact hk⟩
      have hork : j = k ∨ Desc (parentMap s) k j := hor
      have hrk2 : r j ≤ r k + m := by
        rcases hork with rfl | hd2
        · omega
        · omega
      exact ih _ k j hkmem hork hrk2

/-- What `instance.delete()` collects is exactly the node and its strict
parent-descendants, provided the parent forest admits a ranking bounded by
the table size (true of every forest). -/
theorem collectedIds_iff {s : Store} {r : Nat → Nat} {x : Nat}
    (hr : RankedPM r (parentMap s)) (hbound : ∀ n ∈ s, r n.id < s.length + r x) :
    ∀ j, j ∈ collectedIds s x ↔ (j = x ∨ Desc (parentMap s) x j) := by
  intro j
  constructor
  · intro hj
    exact iterCascade_sound s.length [x]
      (fun j' hj' => Or.inl (List.mem_singleton.mp hj')) j hj
  · intro hj
    unfold collectedIds
    refine iterCascade_complete hr s.length [x] x j (List.mem_singleton.mpr rfl) hj ?_
    rcases hj with rfl | hd
    · omega
    · obtain ⟨b, hb, _⟩ := desc_inversion hd
      obtain ⟨nj, hnj, hnjid, _⟩ := mem_parentMap.mp hb
      have hbd := hbound nj hnj
      rw [hnjid] at hbd
      omega

end DeleteLemmas

/-- C5 counterexample: the claim as stated is false for user references.
A single domain referenced by one domain-tagged entity (a user profile,
whose foreign key is declared `on_delete=SET_NULL`) is deleted without any
`Blocked` failure: the delete succeeds, removes the node, and detaches the
user. -/
theorem C5_counterexample :
    deleteDomain [⟨1, "D", none, "/"⟩] [] [⟨7, some 1⟩] 1 =
      some (Except.ok ([], [⟨7, none⟩])) := rfl

/-- C5 as amended: deletion collects the node and exactly its
parent-descendants; if no PROTECT-linked entity (project or task)
references a collected node, the whole subtree is removed (and SET_NULL
user references are detached rather than blocking); if at least one
PROTECT-linked entity references the subtree, the operation fails with
the count of those protecting entities and removes nothing. -/
theorem C5_delete_cascade_or_block (s : Store) (r : Nat → Nat)
    (refs : List RefEntity) (users : List UserRef) (x : Nat)
    (hr : RankedPM r (parentMap s)) (hbound : ∀ n ∈ s, r n.id < s.length + r x)
    (hx : ∃ xn, lookupDomain s x = some xn) :
    (∀ j, j ∈ collectedIds s x ↔ (j = x ∨ Desc (parentMap s) x j)) ∧
    (protectedCount refs (collectedIds s x) = 0 →
      ∃ s2 users2, deleteDomain s refs users x = some (Except.ok (s2, users2)) ∧
        (∀ n ∈ s, (n ∈ s2 ↔ ¬ (n.id = x ∨ Desc (parentMap s) x n.id))) ∧
        (∀ n ∈ s2, n ∈ s)) ∧
    (protectedCount refs (collectedIds s x) ≠ 0 →
      deleteDomain s refs users x =
        some (Except.error (protectedCount refs (collectedIds s x)))) := by
  obtain ⟨xn, hxn⟩ := hx
  have hiff := collectedIds_iff hr hbound
  refine ⟨hiff, ?_, ?_⟩
  · intro hzero
    unfold deleteDomain
    rw [hxn]
    simp only [hzero, ne_eq, not_true_eq_false, if_neg, ite_false, Option.some_inj]
    refine ⟨_, _, rfl, ?_, ?_⟩
    · intro n hn
      constructor
      · intro hn2
        have := (List.mem_filter.mp hn2).2
        simp only [decide_eq_true_eq] at this
        intro hcon
        exact this ((hiff n.id).mpr hcon)
      · intro hcon
        refine List.mem_filter.mpr ⟨hn, ?_⟩
        simp only [decide_eq_true_eq]
        intro hmem
        exact hcon ((hiff n.id).mp hmem)
    · intro n hn
      exact (List.mem_filter.mp hn).1
  · intro hnz
    unfold deleteDomain
    rw [hxn]
    rw [if_pos hnz]

/-- Witness for C5 (amended): deleting the demo root with one task
attached to the grandchild is refused with count 1; deleting it with no
PROTECT-linked entities removes all three nodes. -/
theorem C5_witness :
    deleteDomain demo3 [⟨10, some 3⟩] [] 1 = some (Except.error 1) ∧
    ∃ s2 users2,
      deleteDomain demo3 [] [⟨7, some 3⟩] 1 = some (Except.ok (s2, users2)) ∧
      (∀ n ∈ demo3, (n ∈ s2 ↔ ¬ (n.id = 1 ∨ Desc (parentMap demo3) 1 n.id))) ∧
      (∀ n ∈ s2, n ∈ demo3) :=
  ⟨by
    have h := (C5_delete_cascade_or_block demo3 (fun n => n) [⟨10, some 3⟩] [] 1
      (by decide) (by decide) ⟨⟨1, "Root", none, "/"⟩, by decide⟩).2.2
    have hc : protectedCount [⟨10, some 3⟩] (collectedIds demo3 1) = 1 := by decide
    rw [hc] at h
    exact h (by decide),
   (C5_delete_cascade_or_block demo3 (fun n => n) [] [⟨7, some 3⟩] 1
      (by decide) (by decide) ⟨⟨1, "Root", none, "/"⟩, by decide⟩).2.1 (by decide)⟩

section SplitLemmas

theorem splitSlash_cons_slash (l : List Char) :
    splitSlash ('/' :: l) = [] :: splitSlash l := by
  simp [splitSlash]

theorem splitSlash_ne_nil (l : List Char) : splitSlash l ≠ [] := by
  induction l with
  | nil => simp [splitSlash]
  | cons c l ih =>
    by_cases hc : c = '/'
    · subst hc; rw [splitSlash_cons_slash]; simp
    · simp only [splitSlash, if_neg hc]
      cases h : splitSlash l with
      | nil => simp
      | cons sg rest => simp

theorem splitSlash_cons_ne {c : Char} (hc : c ≠ '/') {l : List Char}
    {sg : List Char} {rest : List (List Char)} (h : splitSlash l = sg :: rest) :
    splitSlash (c :: l) = (c :: sg) :: rest := by
  simp only [splitSlash, if_neg hc, h]

theorem splitSlash_length (l : List Char) :
    (splitSlash l).length = l.count '/' + 1 := by
  induction l with
  | nil => rfl
  | cons c l ih =>
    by_cases hc : c = '/'
    · subst hc
      rw [splitSlash_cons_slash]
      simp only [List.length_cons, List.count_cons]
      simp [ih]
    · obtain ⟨sg, rest, h⟩ := List.exists_cons_of_ne_nil (splitSlash_ne_nil l)
      rw [splitSlash_cons_ne hc h]
      rw [h] at ih
      simp only [List.length_cons] at ih ⊢
      rw [List.count_cons]
      simp only [beq_iff_eq, hc, if_false]
      omega

theorem splitSlash_slash_append : ∀ (q ys : List Char),
    splitSlash (q ++ '/' :: ys) = (splitSlash (q ++ ['/'])).dropLast ++ splitSlash ys := by
  intro q
  induction q with
  | nil =>
    intro ys
    simp only [List.nil_append]
    rw [splitSlash_cons_slash]
    rfl
  | cons c q ih =>
    intro ys
    by_cases hc : c = '/'
    · subst hc
      simp only [List.cons_append]
      rw [splitSlash_cons_slash, splitSlash_cons_slash, ih ys,
        List.dropLast_cons_of_ne_nil (splitSlash_ne_nil (q ++ ['/']))]
      rfl
    · simp only [List.cons_append]
      obtain ⟨sg, rest, h1⟩ := List.exists_cons_of_ne_nil (splitSlash_ne_nil (q ++ '/' :: ys))
      obtain ⟨sg2, rest2, h2⟩ := List.exists_cons_of_ne_nil (splitSlash_ne_nil (q ++ ['/']))
      have hlen := splitSlash_length (q ++ ['/'])
      have hrest2 : rest2 ≠ [] := by
        intro he
        rw [h2, he] at hlen
        simp only [List.length_cons, List.length_nil] at hlen
        rw [List.count_append] at hlen
        simp at hlen
      have ih' := ih ys
      rw [h1, h2, List.dropLast_cons_of_ne_nil hrest2] at ih'
      simp only [List.cons_append] at ih'
      have hsg : sg = sg2 := (List.cons.injEq _ _ _ _).mp ih' |>.1
      have hrest : rest = rest2.dropLast ++ splitSlash ys :=
        (List.cons.injEq _ _ _ _).mp ih' |>.2
      rw [splitSlash_cons_ne hc h1, splitSlash_cons_ne hc h2,
        List.dropLast_cons_of_ne_nil hrest2]
      simp only [List.cons_append]
      rw [hsg, hrest]

theorem splitSlash_block {w : List Char} (hw : '/' ∉ w) :
    splitSlash (w ++ ['/']) = [w, []] := by
  induction w with
  | nil =>
    simp only [List.nil_append]
    rw [splitSlash_cons_slash]
    rfl
  | cons c w ih =>
    have hc : c ≠ '/' := fun he => hw (he ▸ List.mem_cons_self c w)
    have hw' : '/' ∉ w := fun hm => hw (List.mem_cons_of_mem c hm)
    rw [List.cons_append]
    exact splitSlash_cons_ne hc (ih hw')

theorem pathSegments_child {q : String} {i : Nat} (hq : ∃ x, q.data = x ++ ['/']) :
    pathSegments (childPathOf q i) = pathSegments q ++ [(natToStr i).data] := by
  obtain ⟨x, hx⟩ := hq
  unfold pathSegments
  rw [childPathOf_data, hx]
  have hs : (x ++ ['/']) ++ (natToStr i).data ++ ['/'] =
      x ++ '/' :: ((natToStr i).data ++ ['/']) := by
    simp
  rw [hs, splitSlash_slash_append, splitSlash_block (slash_not_mem_natToStr i)]
  have hE : splitSlash (x ++ ['/']) = (splitSlash (x ++ ['/'])).dropLast ++ [[]] := by
    have h0 := splitSlash_slash_append x []
    have h1 : x ++ '/' :: ([] : List Char) = x ++ ['/'] := rfl
    rw [h1] at h0
    exact h0
  conv_rhs => rw [hE]
  rw [List.filter_append, List.filter_append]
  have h2 : ([(natToStr i).data, []] : List (List Char)).filter (fun seg => seg ≠ []) =
      [(natToStr i).data] := by
    have hne : (natToStr i).data ≠ [] := natToStr_ne_nil i
    simp [List.filter, hne]
  have h3 : ([[]] : List (List Char)).filter (fun seg => seg ≠ []) = [] := by
    simp
  rw [h2, h3, List.append_nil]

theorem parsePathIds_child {q : String} {i : Nat} (hq : ∃ x, q.data = x ++ ['/']) :
    parsePathIds (childPathOf q i) = parsePathIds q ++ [i] := by
  unfold parsePathIds
  rw [pathSegments_child hq, List.filterMap_append]
  simp [pyInt_natToStr]

theorem parsePathIds_root : parsePathIds "/" = [] := by decide

end SplitLemmas

/-- Lexicographic order on `List Char` strictly extends along a non-empty suffix. -/
theorem lex_lt_of_append {l t : List Char} (hne : t ≠ []) :
    List.Lex (· < ·) l (l ++ t) := by
  induction l with
  | nil =>
    cases t with
    | nil => exact absurd rfl hne
    | cons c cs => exact List.Lex.nil
  | cons c l ih => exact List.Lex.cons ih

/-- A proper prefix is smaller in the string order. -/
theorem path_lt_of_proper {a b : String}
    (hpre : a.data <+: b.data) (hlen : a.data.length < b.data.length) : a < b := by
  rw [String.lt_iff_toList_lt]
  obtain ⟨t, ht⟩ := hpre
  have hne : t ≠ [] := by
    intro he
    rw [he, List.append_nil] at ht
    rw [ht] at hlen
    omega
  have hlex : List.Lex (· < ·) a.data b.data := by
    rw [← ht]
    exact lex_lt_of_append hne
  show List.Lex (fun x y => x < y) a.toList b.toList
  exact hlex

/-- The root-first ancestor chain of a row of a valid table: the nodes
whose ids the materialized path embeds, each a strict path-prefix of the
next and of the row itself, ending at the row's parent. -/
theorem ancestors_chain {s : Store} {r : Nat → Nat}
    (hu : UniqueIds s) (hr : RankedPM r (parentMap s)) (hI1 : InvariantI1 s) :
    ∀ n ∈ s, ∃ As : List DomainNode,
      parsePathIds n.path = As.map (fun a => a.id) ∧
      (∀ a ∈ As, a ∈ s) ∧
      (∀ a ∈ As, a.path.data <+: n.path.data ∧ a.path.data.length < n.path.data.length) ∧
      As.Pairwise (fun a b => a.path.data <+: b.path.data ∧
        a.path.data.length < b.path.data.length) ∧
      (∀ pid, n.parent = some pid → (As.map (fun a => a.id)).getLast? = some pid) := by
  have main : ∀ k, ∀ n ∈ s, r n.id < k → ∃ As : List DomainNode,
      parsePathIds n.path = As.map (fun a => a.id) ∧
      (∀ a ∈ As, a ∈ s) ∧
      (∀ a ∈ As, a.path.data <+: n.path.data ∧ a.path.data.length < n.path.data.length) ∧
      As.Pairwise (fun a b => a.path.data <+: b.path.data ∧
        a.path.data.length < b.path.data.length) ∧
      (∀ pid, n.parent = some pid → (As.map (fun a => a.id)).getLast? = some pid) := by
    intro k
    induction k with
    | zero => intro n _ hk; omega
    | succ K ih =>
      intro n hn hk
      have hok := hI1 n hn
      unfold PathOk at hok
      cases hnp : n.parent with
      | none =>
        rw [hnp] at hok
        simp only [pathFromParent, Option.some_inj] at hok
        refine ⟨[], ?_, by simp, by simp, by simp, ?_⟩
        · rw [← hok, parsePathIds_root]
          rfl
        · intro pid hpid
          cases hpid
      | some pid =>
        rw [hnp] at hok
        simp only [pathFromParent, Option.map_eq_some'] at hok
        obtain ⟨q, hq, hval⟩ := hok
        obtain ⟨hqmem, hqid⟩ := lookupDomain_mem hq
        have hedge : (n.id, some pid) ∈ parentMap s := mem_parentMap.mpr ⟨n, hn, rfl, hnp⟩
        have hrank : r pid < r n.id := hr _ hedge _ rfl
        obtain ⟨Aq, hq1, hq2, hq3, hq4, _⟩ := ih q hqmem (by rw [hqid]; omega)
        have hqslash := path_ends_slash hI1 hqmem
        have hndata : n.path.data = q.path.data ++ ((natToStr pid).data ++ ['/']) := by
          rw [← hval, childPathOf_data, List.append_assoc]
        have hqpre : q.path.data <+: n.path.data ∧
            q.path.data.length < n.path.data.length := by
          constructor
          · rw [hndata]; exact List.prefix_append _ _
          · rw [hndata]
            have hnn := natToStr_ne_nil pid
            have hlen : 1 ≤ (natToStr pid).data.length := by
              cases hcc : (natToStr pid).data with
              | nil => exact absurd hcc hnn
              | cons c cs => simp
            simp only [List.length_append, List.length_singleton]
            omega
        refine ⟨Aq ++ [q], ?_, ?_, ?_, ?_, ?_⟩
        · rw [← hval, parsePathIds_child hqslash, hq1, List.map_append, List.map_singleton,
            hqid]
        · intro a ha
          rcases List.mem_append.mp ha with ha | ha
          · exact hq2 a ha
          · rw [List.mem_singleton.mp ha]; exact hqmem
        · intro a ha
          rcases List.mem_append.mp ha with ha | ha
          · obtain ⟨h1, h2⟩ := hq3 a ha
            exact ⟨h1.trans hqpre.1, by omega⟩
          · rw [List.mem_singleton.mp ha]
            exact hqpre
        · rw [List.pairwise_append]
          refine ⟨hq4, by simp, ?_⟩
          intro a ha b hb
          rw [List.mem_singleton.mp hb]
          exact hq3 a ha
        · intro pid2 hpid2
          cases hpid2
          rw [List.map_append, List.map_singleton, List.getLast?_concat, hqid]
  intro n hn
  exact main (r n.id + 1) n hn (by omega)

/-- C9: on a table with unique ids, an acyclic parent relation and Invariant
I1, `get_ancestors` returns exactly the rows whose ids are embedded in the
node's materialized path, in root-first order (the Django queryset ordered by
`path` coincides with path-embedding order), the last id being the node's
parent; it returns the empty list when the node has no parent. -/
theorem C9_get_ancestors (s : Store) (r : Nat → Nat) (n : DomainNode)
    (hu : UniqueIds s) (hr : RankedPM r (parentMap s)) (hI1 : InvariantI1 s)
    (hn : n ∈ s) :
    ((get_ancestors s n).map fun a => a.id) = parsePathIds n.path ∧
    (n.parent = none → get_ancestors s n = []) ∧
    (∀ pid, n.parent = some pid → (parsePathIds n.path).getLast? = some pid) := by
  obtain ⟨As, hA1, hA2, hA3, hA4, hA5⟩ := ancestors_chain hu hr hI1 n hn
  refine ⟨?_, ?_, ?_⟩
  · cases hnp : n.parent with
    | none =>
      unfold get_ancestors
      rw [hnp]
      have hok := hI1 n hn
      unfold PathOk at hok
      rw [hnp] at hok
      simp only [pathFromParent, Option.some_inj] at hok
      rw [← hok, parsePathIds_root]
      rfl
    | some pid =>
      unfold get_ancestors
      rw [hnp]
      have hndA : As.Nodup := by
        refine hA4.imp ?_
        intro a b hab he
        rw [he] at hab
        omega
      have hndF : (s.filter fun m => decide (m.id ∈ parsePathIds n.path)).Nodup := by
        have hs : s.Nodup := List.Nodup.of_map _ hu
        exact hs.filter _
      have hext : ∀ m, m ∈ (s.filter fun m => decide (m.id ∈ parsePathIds n.path)) ↔
          m ∈ As := by
        intro m
        rw [List.mem_filter]
        constructor
        · rintro ⟨hms, hmid⟩
          simp only [decide_eq_true_eq, hA1, List.mem_map] at hmid
          obtain ⟨a, haA, haid⟩ := hmid
          have h1 := mem_lookupDomain hu hms
          have h2 := mem_lookupDomain hu (hA2 a haA)
          rw [haid] at h2
          rw [h2] at h1
          obtain rfl := Option.some_inj.mp h1
          exact haA
        · intro hmA
          refine ⟨hA2 m hmA, ?_⟩
          simp only [decide_eq_true_eq, hA1, List.mem_map]
          exact ⟨m, hmA, rfl⟩
      have hperm : List.Perm (s.filter fun m => decide (m.id ∈ parsePathIds n.path)) As :=
        (List.perm_ext_iff_of_nodup hndF hndA).mpr hext
      have hpermSort : List.Perm
          (sortByPath (s.filter fun m => decide (m.id ∈ parsePathIds n.path))) As := by
        unfold sortByPath
        exact (List.perm_insertionSort _ _).trans hperm
      have hsortedA : As.Pairwise fun a b => a.path < b.path := by
        refine hA4.imp ?_
        intro a b hab
        exact path_lt_of_proper hab.1 hab.2
      have hsortedOut : (sortByPath
          (s.filter fun m => decide (m.id ∈ parsePathIds n.path))).Pairwise
            fun a b => a.path < b.path := by
        have hle : (sortByPath
            (s.filter fun m => decide (m.id ∈ parsePathIds n.path))).Pairwise
              fun a b => a.path ≤ b.path := by
          unfold sortByPath
          exact List.sorted_insertionSort _ _
        have hneq : (sortByPath
            (s.filter fun m => decide (m.id ∈ parsePathIds n.path))).Pairwise
              fun a b => a.path ≠ b.path := by
          have hneA : As.Pairwise fun a b => a.path ≠ b.path := by
            refine hA4.imp ?_
            intro a b hab he
            rw [he] at hab
            omega
          have hsymm : ∀ {x y : DomainNode}, x.path ≠ y.path → y.path ≠ x.path :=
            fun h => h.symm
          exact (hpermSort.pairwise_iff hsymm).mpr hneA
        refine (hle.and hneq).imp ?_
        intro a b hab
        exact lt_of_le_of_ne hab.1 hab.2
      have heq : sortByPath (s.filter fun m => decide (m.id ∈ parsePathIds n.path)) = As :=
        List.eq_of_perm_of_sorted hpermSort hsortedOut hsortedA
      rw [heq, hA1]
  · intro hnp
    unfold get_ancestors
    rw [hnp]
  · intro pid hpid
    rw [hA1]
    exact hA5 pid hpid

/-- Witness for C9: on the three-node demo table the ancestors of the
grandchild (id 3, path "/1/2/") have ids [1, 2], root first, ending at its
parent 2, and the embedded-id parse agrees. -/
theorem C9_witness :
    ((get_ancestors demo3 ⟨3, "G", some 2, "/1/2/"⟩).map fun a => a.id) =
      parsePathIds "/1/2/" ∧
    parsePathIds "/1/2/" = [1, 2] :=
  ⟨(C9_get_ancestors demo3 (fun i => i) ⟨3, "G", some 2, "/1/2/"⟩
      (by decide) (by decide) (by decide) (by decide)).1, by decide⟩
